import Mathlib

/-!
Verification development for the query execution planner and pull-based
pipeline engine of the redis-graph module
(`src/execution_plan/execution_plan.c`).

The development has three parts:

* an executor model: operator trees with per-node stream state and an
  abstract operator implementation (`consume` / `reset` acting on a local
  cursor state), over which `ResetStream`, `_ExecuteOpNode`,
  `PullFromStreams` and `ExecutionPlan_Execute` are embedded with an
  explicit fuel parameter (the C functions may diverge);

* an arena model of the plan DAG (nodes addressed by index, with both
  `children` and `parents` adjacency lists exactly as the C `OpNode`),
  over which the plan builder `NewExecutionPlan`, the optimizer passes
  `_ExecutionPlan_OptimizeEntryPoints`, `_ExecutionPlan_MergeNodes` and
  `_ExecutionPlan_AddFilters` are embedded;

* a tree model of the two recursive optimizer walks (scan attachment and
  filter pushdown), used for the structural theorems about those walks.
-/

set_option maxHeartbeats 1000000

namespace RedisGraph

/-! ### Operator status codes and stream states.

Modelled from the spec: the `OpResult` enum (`OP_OK`, `OP_DEPLETED`,
`OP_REFRESH`, `OP_ERR`) and the per-node stream state
(`StreamUnInitialized`, `StreamConsuming`, `StreamDepleted`) are declared
in the execution-plan header, which is not among the provided sources;
their values are taken from the spec's operator-return-code and
stream-state descriptions and from their uses in `execution_plan.c`. -/

inductive OpResult where
  | OP_OK
  | OP_DEPLETED
  | OP_REFRESH
  | OP_ERR
deriving DecidableEq, Repr

export OpResult (OP_OK OP_DEPLETED OP_REFRESH OP_ERR)

inductive StreamState where
  | StreamUnInitialized
  | StreamConsuming
  | StreamDepleted
deriving DecidableEq, Repr

export StreamState (StreamUnInitialized StreamConsuming StreamDepleted)

/-! ### Abstract operators.

Modelled from the spec: the concrete operator implementations
(`op_all_node_scan.c`, `op_expand_all.c`, ...) are not among the provided
sources.  The spec describes an operator as exposing `consume` (produce
next tuple or signal) and `reset` (rewind internal cursor) acting on the
operator's private state.  We model an operator implementation as a pair
of functions on a local state of type `σ`. -/

structure OpBehavior (σ : Type) where
  consume : σ → OpResult × σ
  reset : σ → OpResult × σ

/-- An `OpNode` of the executor model: the C struct holds a pointer to the
operator implementation, the operator's private state, the stream state
and the `children` array.  The `id` field models the node's address
(used only to observe invocation orders). -/
inductive OpNode (σ : Type) : Type where
  | mk (id : Nat) (beh : OpBehavior σ) (cursor : σ) (state : StreamState)
      (children : List (OpNode σ))

namespace OpNode

def id {σ : Type} : OpNode σ → Nat
  | .mk i _ _ _ _ => i

def beh {σ : Type} : OpNode σ → OpBehavior σ
  | .mk _ b _ _ _ => b

def cursor {σ : Type} : OpNode σ → σ
  | .mk _ _ c _ _ => c

def state {σ : Type} : OpNode σ → StreamState
  | .mk _ _ _ s _ => s

def children {σ : Type} : OpNode σ → List (OpNode σ)
  | .mk _ _ _ _ ch => ch

def withChildren {σ : Type} : OpNode σ → List (OpNode σ) → OpNode σ
  | .mk i b c s _, ch => .mk i b c s ch

end OpNode

variable {σ : Type}

/-- `node->state = StreamConsuming` (first line of `_ExecuteOpNode`). -/
def setConsuming : OpNode σ → OpNode σ
  | .mk i b c _ ch => .mk i b c StreamConsuming ch

/-- `node->operation->consume(node->operation, graph)`: run the operator's
`consume` on its private state. -/
def consumeNode : OpNode σ → OpResult × OpNode σ
  | .mk i b c s ch =>
    let r := b.consume c
    (r.1, .mk i b r.2 s ch)

/-- `node->operation->reset(node->operation)`: run the operator's `reset`
on its private state, observing the returned status. -/
def resetNode : OpNode σ → OpResult × OpNode σ
  | .mk i b c s ch =>
    let r := b.reset c
    (r.1, .mk i b r.2 s ch)

/-! ### `ResetStream` (execution_plan.c lines 441-447)

```
void ResetStream(OpNode *stream) {
    stream->operation->reset(stream->operation);
    for(int i = 0; i < stream->childCount; i++) {
        ResetStream(stream->children[i]);
    }
}
```
The operator's reset status is ignored, and the node's `state` field is
not touched. -/

mutual

def ResetStream : OpNode σ → OpNode σ
  | .mk i b c s ch => .mk i b (b.reset c).2 s (ResetStreamList ch)

def ResetStreamList : List (OpNode σ) → List (OpNode σ)
  | [] => []
  | c :: cs => ResetStream c :: ResetStreamList cs

end

/-! Instrumented variant of `ResetStream`: same computation, but also
yields the list of node ids in the order in which
`stream->operation->reset` is invoked. -/
mutual

def ResetStreamTrace : OpNode σ → OpNode σ × List Nat
  | .mk i b c s ch =>
    let rest := ResetStreamTraceList ch
    (.mk i b (b.reset c).2 s rest.1, i :: rest.2)

def ResetStreamTraceList : List (OpNode σ) → List (OpNode σ) × List Nat
  | [] => ([], [])
  | c :: cs =>
    let hd := ResetStreamTrace c
    let tl := ResetStreamTraceList cs
    (hd.1 :: tl.1, hd.2 ++ tl.2)

end

/-! Pre-order enumeration of the node ids of an operator tree. -/
mutual

def preorderIds : OpNode σ → List Nat
  | .mk i _ _ _ ch => i :: preorderIdsList ch

def preorderIdsList : List (OpNode σ) → List Nat
  | [] => []
  | c :: cs => preorderIds c ++ preorderIdsList cs

end

/-! The multiset of stream states of a tree, in pre-order. -/
mutual

def streamStates : OpNode σ → List StreamState
  | .mk _ _ _ s ch => s :: streamStatesList ch

def streamStatesList : List (OpNode σ) → List StreamState
  | [] => []
  | c :: cs => streamStates c ++ streamStatesList cs

end

/-! The cursors of a tree, in pre-order. -/
mutual

def cursors : OpNode σ → List σ
  | .mk _ _ c _ ch => c :: cursorsList ch

def cursorsList : List (OpNode σ) → List σ
  | [] => []
  | c :: cs => cursors c ++ cursorsList cs

end

/-! A predicate holding of every operator implementation in a tree. -/
mutual

def allBehaviors (P : OpBehavior σ → Prop) : OpNode σ → Prop
  | .mk _ b _ _ ch => P b ∧ allBehaviorsList P ch

def allBehaviorsList (P : OpBehavior σ → Prop) : List (OpNode σ) → Prop
  | [] => True
  | c :: cs => allBehaviors P c ∧ allBehaviorsList P cs

end

/-! ### `PullFromStreams` (execution_plan.c lines 471-511)

The three `for` loops of the C function are embedded as three list
recursions, parameterized over the recursive child executor `f`
(`_ExecuteOpNode` at one less fuel).  `f` returns `none` when the fuel is
exhausted; `none` is propagated. -/

/-- Result of the first loop: either every child was consumed without any
returning `OP_OK` (`allFailed`, carrying the updated children), or some
child returned `OP_OK` (`found pre adv suf`: `pre` are the updated
children that failed first, `adv` the updated advanced child, `suf` the
untouched children to its right). -/
inductive AdvanceResult (σ : Type) where
  | allFailed (updated : List (OpNode σ))
  | found (pre : List (OpNode σ)) (adv : OpNode σ) (suf : List (OpNode σ))

/-- First loop of `PullFromStreams`:
```
for(; stream_idx < source->childCount; stream_idx++) {
    stream = source->children[stream_idx];
    if(_ExecuteOpNode(stream, graph) == OP_OK) break;
}
``` -/
def advanceStreams (f : OpNode σ → Option (OpResult × OpNode σ)) :
    List (OpNode σ) → Option (AdvanceResult σ)
  | [] => some (.allFailed [])
  | c :: cs =>
    match f c with
    | none => none
    | some (r, c') =>
      if r = OP_OK then some (.found [] c' cs)
      else
        match advanceStreams f cs with
        | none => none
        | some (.allFailed us) => some (.allFailed (c' :: us))
        | some (.found pre adv suf) => some (.found (c' :: pre) adv suf)

/-- Result of the second and third loops: the updated child list, tagged
with whether some pull failed (the C code returns immediately on
failure, leaving the remaining children untouched). -/
inductive PhaseResult (σ : Type) where
  | ok (updated : List (OpNode σ))
  | fail (updated : List (OpNode σ))

/-- Second loop of `PullFromStreams`:
```
for(int i = stream_idx+1; i < source->childCount; i++) {
    stream = source->children[i];
    if(stream->state == StreamUnInitialized) {
        if(_ExecuteOpNode(stream, graph) != OP_OK) return OP_DEPLETED;
    }
}
``` -/
def pullUninitialized (f : OpNode σ → Option (OpResult × OpNode σ)) :
    List (OpNode σ) → Option (PhaseResult σ)
  | [] => some (.ok [])
  | c :: cs =>
    if c.state = StreamUnInitialized then
      match f c with
      | none => none
      | some (r, c') =>
        if r = OP_OK then
          match pullUninitialized f cs with
          | none => none
          | some (.ok us) => some (.ok (c' :: us))
          | some (.fail us) => some (.fail (c' :: us))
        else some (.fail (c' :: cs))
    else
      match pullUninitialized f cs with
      | none => none
      | some (.ok us) => some (.ok (c :: us))
      | some (.fail us) => some (.fail (c :: us))

/-- Third loop of `PullFromStreams`, acting on the reversed prefix (the C
code walks indices `stream_idx-1` down to `0`):
```
for(; stream_idx >= 0; stream_idx--) {
    stream = source->children[stream_idx];
    ResetStream(stream);
    if(_ExecuteOpNode(stream, graph) != OP_OK) return OP_ERR;
}
``` -/
def resetAndPull (f : OpNode σ → Option (OpResult × OpNode σ)) :
    List (OpNode σ) → Option (PhaseResult σ)
  | [] => some (.ok [])
  | c :: cs =>
    match f (ResetStream c) with
    | none => none
    | some (r, c') =>
      if r = OP_OK then
        match resetAndPull f cs with
        | none => none
        | some (.ok us) => some (.ok (c' :: us))
        | some (.fail us) => some (.fail (c' :: us))
      else some (.fail (c' :: cs))

/-- Body of `PullFromStreams`, parameterized by the child executor. -/
def PullFromStreamsAux (f : OpNode σ → Option (OpResult × OpNode σ))
    (source : OpNode σ) : Option (OpResult × OpNode σ) :=
  match advanceStreams f source.children with
  | none => none
  | some (.allFailed us) => some (OP_DEPLETED, source.withChildren us)
  | some (.found pre adv suf) =>
    match pullUninitialized f suf with
    | none => none
    | some (.fail suf') =>
      some (OP_DEPLETED, source.withChildren (pre ++ adv :: suf'))
    | some (.ok suf') =>
      match resetAndPull f pre.reverse with
      | none => none
      | some (.fail rpre) =>
        some (OP_ERR, source.withChildren (rpre.reverse ++ adv :: suf'))
      | some (.ok rpre) =>
        some (OP_OK, source.withChildren (rpre.reverse ++ adv :: suf'))

/-! ### `_ExecuteOpNode` (execution_plan.c lines 449-469)

```
OpResult _ExecuteOpNode(OpNode *node, Graph *graph) {
consume:
    node->state = StreamConsuming;
    OpResult res = node->operation->consume(node->operation, graph);
    if(res == OP_REFRESH) {
        if(node->operation->reset(node->operation) != OP_OK) {
            return OP_ERR;
        }
        res = PullFromStreams(node, graph);
        if(res == OP_OK) {
            goto consume;
        }
    }
    return res;
}
```
The `goto consume` retry loop and the mutual recursion with
`PullFromStreams` may diverge, so the embedding takes a fuel parameter
and returns `none` when the fuel runs out. -/

def ExecuteOpNode : Nat → OpNode σ → Option (OpResult × OpNode σ)
  | 0, _ => none
  | fuel + 1, node =>
    let node₁ := setConsuming node
    match consumeNode node₁ with
    | (res, node₂) =>
      if res = OP_REFRESH then
        match resetNode node₂ with
        | (OP_OK, node₃) =>
          match PullFromStreamsAux (ExecuteOpNode fuel) node₃ with
          | none => none
          | some (OP_OK, node₄) => ExecuteOpNode fuel node₄
          | some (r, node₄) => some (r, node₄)
        | (_, node₃) => some (OP_ERR, node₃)
      else some (res, node₂)

/-- `PullFromStreams` as a stand-alone entry point (the children are
executed at one less fuel). -/
def PullFromStreams : Nat → OpNode σ → Option (OpResult × OpNode σ)
  | 0, _ => none
  | fuel + 1, source => PullFromStreamsAux (ExecuteOpNode fuel) source

/-! ### `ExecutionPlan_Execute` (execution_plan.c lines 513-518)

```
ResultSet* ExecutionPlan_Execute(ExecutionPlan *plan) {
    while(_ExecuteOpNode(plan->root, plan->graph) == OP_OK);
    return ((ProduceResults*)plan->root->operation)->resultset;
}
```
Modelled from the spec: the `ProduceResults` operator (not among the
provided sources) accumulates the result set in its private state, so
the returned result set is the root operator's private state. -/

def rootResultSet (t : OpNode σ) : σ := t.cursor

def executeLoop : Nat → OpNode σ → Option (OpResult × OpNode σ)
  | 0, _ => none
  | fuel + 1, root =>
    match ExecuteOpNode (fuel + 1) root with
    | none => none
    | some (OP_OK, root') => executeLoop fuel root'
    | some (r, root') => some (r, root')

def ExecutionPlan_Execute (fuel : Nat) (root : OpNode σ) : Option σ :=
  match executeLoop fuel root with
  | none => none
  | some (_, root') => some (rootResultSet root')

/-! ### Specification-side formulation of the nested-loop cross-product
protocol.

The following definitions transcribe the spec's description of
`pull_from_children` (spec §4.6, steps 1-4) over the same executor model,
phrased with list positions instead of the C accumulator loops:

1. advance the leftmost child whose recursive consume returns `Ok`;
2. if none yielded, `Depleted`;
3. every child to the right of the advanced one whose state is
   `Uninitialized` is consumed; a failure is `Depleted`;
4. every child strictly to the left of the advanced one is reset
   (`ResetStream`) and consumed, walking from the advanced child towards
   the leftmost; a failure is `Err`; otherwise `Ok`. -/

/-- Step 1: iterate children in order, calling the recursive executor;
stop at the first that returns `Ok`, yielding its position. -/
def advanceLeftmostChild (f : OpNode σ → Option (OpResult × OpNode σ)) :
    List (OpNode σ) → Option (List (OpNode σ) × Option Nat)
  | [] => some ([], none)
  | c :: cs =>
    match f c with
    | none => none
    | some (r, c') =>
      if r = OP_OK then some (c' :: cs, some 0)
      else
        match advanceLeftmostChild f cs with
        | none => none
        | some (l, o) => some (c' :: l, o.map (· + 1))

/-- Helper for step 3: consume every stream in the list whose state is
`Uninitialized`, stopping unsuccessfully at the first that does not
return `Ok`. -/
def walkUninitialized (f : OpNode σ → Option (OpResult × OpNode σ)) :
    List (OpNode σ) → Option (List (OpNode σ) × Bool)
  | [] => some ([], true)
  | c :: cs =>
    if c.state = StreamUnInitialized then
      match f c with
      | none => none
      | some (r, c') =>
        if r = OP_OK then
          match walkUninitialized f cs with
          | none => none
          | some (l, ok) => some (c' :: l, ok)
        else some (c' :: cs, false)
    else
      match walkUninitialized f cs with
      | none => none
      | some (l, ok) => some (c :: l, ok)

/-- Step 3: the children strictly to the right of position `idx`. -/
def consumeRightOfIdx (f : OpNode σ → Option (OpResult × OpNode σ))
    (idx : Nat) (l : List (OpNode σ)) : Option (List (OpNode σ) × Bool) :=
  match walkUninitialized f (l.drop (idx + 1)) with
  | none => none
  | some (l', ok) => some (l.take (idx + 1) ++ l', ok)

/-- Step 4: for positions `idx - 1` down to `0`, reset the stream's
subtree and consume it, stopping unsuccessfully at the first that does
not return `Ok`. -/
def resetConsumeLeft (f : OpNode σ → Option (OpResult × OpNode σ)) :
    Nat → List (OpNode σ) → Option (List (OpNode σ) × Bool)
  | 0, l => some (l, true)
  | j + 1, l =>
    match l.get? j with
    | none => some (l, true)
    | some c =>
      match f (ResetStream c) with
      | none => none
      | some (r, c') =>
        if r = OP_OK then resetConsumeLeft f j (l.set j c')
        else some (l.set j c', false)

/-- The spec's `pull_from_children`, assembled from steps 1-4. -/
def pullFromChildrenSpecAux (f : OpNode σ → Option (OpResult × OpNode σ))
    (source : OpNode σ) : Option (OpResult × OpNode σ) :=
  match advanceLeftmostChild f source.children with
  | none => none
  | some (l, none) => some (OP_DEPLETED, source.withChildren l)
  | some (l, some idx) =>
    match consumeRightOfIdx f idx l with
    | none => none
    | some (l', false) => some (OP_DEPLETED, source.withChildren l')
    | some (l', true) =>
      match resetConsumeLeft f idx l' with
      | none => none
      | some (l'', false) => some (OP_ERR, source.withChildren l'')
      | some (l'', true) => some (OP_OK, source.withChildren l'')

def pullFromChildrenSpec : Nat → OpNode σ → Option (OpResult × OpNode σ)
  | 0, _ => none
  | fuel + 1, source => pullFromChildrenSpecAux (ExecuteOpNode fuel) source

/-! ### Equivalence of the C loops with the spec protocol. -/

theorem advanceLeftmostChild_eq (f : OpNode σ → Option (OpResult × OpNode σ))
    (l : List (OpNode σ)) :
    advanceLeftmostChild f l = (advanceStreams f l).map (fun a =>
      match a with
      | .allFailed us => (us, none)
      | .found pre adv suf => (pre ++ adv :: suf, some pre.length)) := by
  induction l with
  | nil => simp [advanceLeftmostChild, advanceStreams]
  | cons c cs ih =>
    simp only [advanceLeftmostChild, advanceStreams]
    cases h : f c with
    | none => simp
    | some p =>
      obtain ⟨r, c'⟩ := p
      by_cases hr : r = OP_OK
      · simp [hr]
      · simp only [if_neg hr]
        rw [ih]
        cases h2 : advanceStreams f cs with
        | none => simp
        | some a =>
          cases a with
          | allFailed us => simp
          | found pre adv suf => simp

theorem walkUninitialized_eq (f : OpNode σ → Option (OpResult × OpNode σ))
    (l : List (OpNode σ)) :
    walkUninitialized f l = (pullUninitialized f l).map (fun ph =>
      match ph with
      | .ok us => (us, true)
      | .fail us => (us, false)) := by
  induction l with
  | nil => simp [walkUninitialized, pullUninitialized]
  | cons c cs ih =>
    simp only [walkUninitialized, pullUninitialized]
    by_cases hs : c.state = StreamUnInitialized
    · simp only [if_pos hs]
      cases h : f c with
      | none => simp
      | some p =>
        obtain ⟨r, c'⟩ := p
        by_cases hr : r = OP_OK
        · simp only [if_pos hr]
          rw [ih]
          cases h2 : pullUninitialized f cs with
          | none => simp
          | some ph => cases ph <;> simp
        · simp [if_neg hr]
    · simp only [if_neg hs]
      rw [ih]
      cases h2 : pullUninitialized f cs with
      | none => simp
      | some ph => cases ph <;> simp

theorem get?_append_length {α : Type _} (ps : List α) (x : α) (rest : List α) :
    (ps ++ x :: rest).get? ps.length = some x := by
  induction ps with
  | nil => simp
  | cons a as ih => simpa using ih

theorem set_append_length {α : Type _} (ps : List α) (x : α) (rest : List α)
    (c : α) : (ps ++ x :: rest).set ps.length c = ps ++ c :: rest := by
  induction ps with
  | nil => simp
  | cons a as ih => simp [List.set, ih]

theorem resetConsumeLeft_eq (f : OpNode σ → Option (OpResult × OpNode σ))
    (pre : List (OpNode σ)) :
    ∀ rest, resetConsumeLeft f pre.length (pre ++ rest) =
      (resetAndPull f pre.reverse).map (fun ph =>
        match ph with
        | .ok us => (us.reverse ++ rest, true)
        | .fail us => (us.reverse ++ rest, false)) := by
  induction pre using List.reverseRecOn with
  | nil => intro rest; simp [resetConsumeLeft, resetAndPull]
  | append_singleton ps p ih =>
    intro rest
    have hlen : (ps ++ [p]).length = ps.length + 1 := by simp
    have hrw : (ps ++ [p]) ++ rest = ps ++ p :: rest := by simp
    rw [hlen, hrw]
    have hrev : (ps ++ [p]).reverse = p :: ps.reverse := by simp
    rw [hrev]
    simp only [resetConsumeLeft, resetAndPull, get?_append_length]
    cases h : f (ResetStream p) with
    | none => simp
    | some q =>
      obtain ⟨r, c'⟩ := q
      by_cases hr : r = OP_OK
      · simp only [if_pos hr, set_append_length]
        rw [ih (c' :: rest)]
        cases h2 : resetAndPull f ps.reverse with
        | none => simp
        | some ph => cases ph <;> simp
      · simp [if_neg hr, set_append_length]

theorem pullAux_eq_spec (f : OpNode σ → Option (OpResult × OpNode σ))
    (source : OpNode σ) :
    PullFromStreamsAux f source = pullFromChildrenSpecAux f source := by
  unfold PullFromStreamsAux pullFromChildrenSpecAux
  rw [advanceLeftmostChild_eq]
  cases h : advanceStreams f source.children with
  | none => simp
  | some a =>
    cases a with
    | allFailed us => simp
    | found pre adv suf =>
      simp only [Option.map]
      unfold consumeRightOfIdx
      have hdrop : (pre ++ adv :: suf).drop (pre.length + 1) = suf := by
        have : pre ++ adv :: suf = (pre ++ [adv]) ++ suf := by simp
        rw [this]
        have hl : (pre ++ [adv]).length = pre.length + 1 := by simp
        rw [← hl, List.drop_left]
      have htake : (pre ++ adv :: suf).take (pre.length + 1) = pre ++ [adv] := by
        have : pre ++ adv :: suf = (pre ++ [adv]) ++ suf := by simp
        rw [this]
        have hl : (pre ++ [adv]).length = pre.length + 1 := by simp
        rw [← hl, List.take_left]
      rw [hdrop, htake, walkUninitialized_eq]
      cases h2 : pullUninitialized f suf with
      | none => simp
      | some ph =>
        cases ph with
        | fail us => simp
        | ok us =>
          simp only [Option.map]
          have hrw : (pre ++ [adv]) ++ us = pre ++ (adv :: us) := by simp
          rw [hrw, resetConsumeLeft_eq f pre (adv :: us)]
          cases h3 : resetAndPull f pre.reverse with
          | none => simp
          | some ph2 => cases ph2 <;> simp

/-! ### The executor driver never surfaces `OP_REFRESH`. -/

theorem pullAux_result (f : OpNode σ → Option (OpResult × OpNode σ))
    (source : OpNode σ) {r : OpResult} {n' : OpNode σ}
    (h : PullFromStreamsAux f source = some (r, n')) :
    r = OP_OK ∨ r = OP_DEPLETED ∨ r = OP_ERR := by
  unfold PullFromStreamsAux at h
  cases h1 : advanceStreams f source.children with
  | none => rw [h1] at h; cases h
  | some a =>
    rw [h1] at h
    cases a with
    | allFailed us =>
      simp only [Option.some.injEq, Prod.mk.injEq] at h
      rcases h with ⟨rfl, -⟩; simp
    | found pre adv suf =>
      dsimp only at h
      cases h2 : pullUninitialized f suf with
      | none => rw [h2] at h; cases h
      | some ph =>
        rw [h2] at h
        cases ph with
        | fail us =>
          simp only [Option.some.injEq, Prod.mk.injEq] at h
          rcases h with ⟨rfl, -⟩; simp
        | ok us =>
          cases h3 : resetAndPull f pre.reverse with
          | none => rw [h3] at h; cases h
          | some ph2 =>
            rw [h3] at h
            cases ph2 with
            | fail us2 =>
              simp only [Option.some.injEq, Prod.mk.injEq] at h
              rcases h with ⟨rfl, -⟩; simp
            | ok us2 =>
              simp only [Option.some.injEq, Prod.mk.injEq] at h
              rcases h with ⟨rfl, -⟩; simp

theorem ExecuteOpNode_result :
    ∀ (fuel : Nat) (n : OpNode σ) {r : OpResult} {n' : OpNode σ},
    ExecuteOpNode fuel n = some (r, n') →
    r = OP_OK ∨ r = OP_DEPLETED ∨ r = OP_ERR := by
  intro fuel
  induction fuel with
  | zero => intro n r n' h; cases h
  | succ fuel ih =>
    intro n r n' h
    unfold ExecuteOpNode at h
    dsimp only at h
    rcases hcm : consumeNode (setConsuming n) with ⟨res, n₂⟩
    rw [hcm] at h
    dsimp only at h
    by_cases hr : res = OP_REFRESH
    · simp only [if_pos hr] at h
      rcases hrn : resetNode n₂ with ⟨r₂, n₃⟩
      rw [hrn] at h
      cases r₂ with
      | OP_OK =>
        dsimp only at h
        cases hp : PullFromStreamsAux (ExecuteOpNode fuel) n₃ with
        | none => rw [hp] at h; cases h
        | some q =>
          rcases q with ⟨rr, n₄⟩
          rw [hp] at h
          cases rr with
          | OP_OK => dsimp only at h; exact ih n₄ h
          | OP_DEPLETED =>
            dsimp only at h
            simp only [Option.some.injEq, Prod.mk.injEq] at h
            rcases h with ⟨rfl, -⟩; simp
          | OP_REFRESH =>
            rcases pullAux_result _ _ hp with h' | h' | h' <;> cases h'
          | OP_ERR =>
            dsimp only at h
            simp only [Option.some.injEq, Prod.mk.injEq] at h
            rcases h with ⟨rfl, -⟩; simp
      | OP_DEPLETED =>
        dsimp only at h
        simp only [Option.some.injEq, Prod.mk.injEq] at h
        rcases h with ⟨rfl, -⟩; simp
      | OP_REFRESH =>
        dsimp only at h
        simp only [Option.some.injEq, Prod.mk.injEq] at h
        rcases h with ⟨rfl, -⟩; simp
      | OP_ERR =>
        dsimp only at h
        simp only [Option.some.injEq, Prod.mk.injEq] at h
        rcases h with ⟨rfl, -⟩; simp
    · simp only [if_neg hr] at h
      simp only [Option.some.injEq, Prod.mk.injEq] at h
      rcases h with ⟨rfl, -⟩
      cases res with
      | OP_OK => simp
      | OP_DEPLETED => simp
      | OP_REFRESH => exact absurd rfl hr
      | OP_ERR => simp

/-! ### Structural lemmas about `ResetStream`. -/

mutual

def behaviorsOf : OpNode σ → List (OpBehavior σ)
  | .mk _ b _ _ ch => b :: behaviorsOfList ch

def behaviorsOfList : List (OpNode σ) → List (OpBehavior σ)
  | [] => []
  | c :: cs => behaviorsOf c ++ behaviorsOfList cs

end

mutual

theorem resetStreamTrace_fst : ∀ t : OpNode σ,
    (ResetStreamTrace t).1 = ResetStream t
  | .mk i b c s ch => by
    simp [ResetStreamTrace, ResetStream, resetStreamTraceList_fst ch]

theorem resetStreamTraceList_fst : ∀ l : List (OpNode σ),
    (ResetStreamTraceList l).1 = ResetStreamList l
  | [] => by simp [ResetStreamTraceList, ResetStreamList]
  | c :: cs => by
    simp [ResetStreamTraceList, ResetStreamList, resetStreamTrace_fst c,
      resetStreamTraceList_fst cs]

end

mutual

theorem resetStreamTrace_snd : ∀ t : OpNode σ,
    (ResetStreamTrace t).2 = preorderIds t
  | .mk i b c s ch => by
    simp [ResetStreamTrace, preorderIds, resetStreamTraceList_snd ch]

theorem resetStreamTraceList_snd : ∀ l : List (OpNode σ),
    (ResetStreamTraceList l).2 = preorderIdsList l
  | [] => by simp [ResetStreamTraceList, preorderIdsList]
  | c :: cs => by
    simp [ResetStreamTraceList, preorderIdsList, resetStreamTrace_snd c,
      resetStreamTraceList_snd cs]

end

mutual

theorem resetStream_streamStates : ∀ t : OpNode σ,
    streamStates (ResetStream t) = streamStates t
  | .mk i b c s ch => by
    simp [ResetStream, streamStates, resetStreamList_streamStates ch]

theorem resetStreamList_streamStates : ∀ l : List (OpNode σ),
    streamStatesList (ResetStreamList l) = streamStatesList l
  | [] => by simp [ResetStreamList, streamStatesList]
  | c :: cs => by
    simp [ResetStreamList, streamStatesList, resetStream_streamStates c,
      resetStreamList_streamStates cs]

end

mutual

theorem resetStream_idem : ∀ t : OpNode σ,
    allBehaviors (fun b => ∀ s, (b.reset (b.reset s).2).2 = (b.reset s).2) t →
    ResetStream (ResetStream t) = ResetStream t
  | .mk i b c s ch => by
    intro h
    obtain ⟨hb, hch⟩ := h
    simp [ResetStream, resetStreamList_idem ch hch, hb c]

theorem resetStreamList_idem : ∀ l : List (OpNode σ),
    allBehaviorsList (fun b => ∀ s, (b.reset (b.reset s).2).2 = (b.reset s).2) l →
    ResetStreamList (ResetStreamList l) = ResetStreamList l
  | [], _ => by simp [ResetStreamList]
  | c :: cs, h => by
    obtain ⟨hc, hcs⟩ := h
    simp [ResetStreamList, resetStream_idem c hc, resetStreamList_idem cs hcs]

end

mutual

theorem resetStream_cursors : ∀ (start : OpBehavior σ → σ) (t : OpNode σ),
    allBehaviors (fun b => ∀ s, (b.reset s).2 = start b) t →
    cursors (ResetStream t) = (behaviorsOf t).map start
  | start, .mk i b c s ch => by
    intro h
    obtain ⟨hb, hch⟩ := h
    simp [ResetStream, cursors, behaviorsOf, hb c,
      resetStreamList_cursors start ch hch]

theorem resetStreamList_cursors : ∀ (start : OpBehavior σ → σ) (l : List (OpNode σ)),
    allBehaviorsList (fun b => ∀ s, (b.reset s).2 = start b) l →
    cursorsList (ResetStreamList l) = (behaviorsOfList l).map start
  | _, [], _ => by simp [ResetStreamList, cursorsList, behaviorsOfList]
  | start, c :: cs, h => by
    obtain ⟨hc, hcs⟩ := h
    simp [ResetStreamList, cursorsList, behaviorsOfList,
      resetStream_cursors start c hc, resetStreamList_cursors start cs hcs]

end

/-! ### Concrete example operators used to instantiate the theorems. -/

/-- Example operator: consume always reports depletion; reset rewinds the
cursor to 0 and reports success. -/
def behDepleted : OpBehavior Nat :=
  ⟨fun s => (OP_DEPLETED, s), fun _ => (OP_OK, 0)⟩

def exLeaf : OpNode Nat := .mk 0 behDepleted 0 StreamUnInitialized []

def exLeafC : OpNode Nat := .mk 0 behDepleted 0 StreamConsuming []

def exConsuming : OpNode Nat := .mk 0 behDepleted 5 StreamConsuming []

/-! ### Claim theorems about the executor. -/

/-- C1: for every operator node, `PullFromStreams` follows the nested-loop
cross-product protocol: it advances the leftmost child whose recursive
consume returns `Ok` (returning `Depleted` when no child yields), then
recursively consumes every child to the right of the advanced one whose
stream state is `Uninitialized` (returning `Depleted` if any such pull
fails), and finally calls `ResetStream` on every child strictly to the
left of the advanced one and recursively consumes it (returning `Err` if
any of those fails); otherwise it returns `Ok`.  Formally,
`PullFromStreams` coincides with the protocol `pullFromChildrenSpec`
transcribed from the spec, at every fuel and on every node (in
particular on every node with at least one child). -/
theorem PullFromStreams_crossproduct_protocol (fuel : Nat)
    (source : OpNode σ) :
    PullFromStreams fuel source = pullFromChildrenSpec fuel source := by
  cases fuel with
  | zero => rfl
  | succ f => exact pullAux_eq_spec (ExecuteOpNode f) source

/-- C2: the executor's recursive driver calls the operator's consume; any
result other than `Refresh` is returned unchanged; on `Refresh` it calls
the operator's reset and returns `Err` if the reset does not return
`Ok`; it then pulls from the node's children and returns that result if
it is not `Ok`, and otherwise retries consume. -/
theorem ExecuteOpNode_driver_protocol (fuel : Nat) (n : OpNode σ) :
    (∀ r n₂, consumeNode (setConsuming n) = (r, n₂) → r ≠ OP_REFRESH →
      ExecuteOpNode (fuel + 1) n = some (r, n₂)) ∧
    (∀ n₂ r₂ n₃, consumeNode (setConsuming n) = (OP_REFRESH, n₂) →
      resetNode n₂ = (r₂, n₃) → r₂ ≠ OP_OK →
      ExecuteOpNode (fuel + 1) n = some (OP_ERR, n₃)) ∧
    (∀ n₂ n₃ r p, consumeNode (setConsuming n) = (OP_REFRESH, n₂) →
      resetNode n₂ = (OP_OK, n₃) →
      PullFromStreams (fuel + 1) n₃ = some (r, p) → r ≠ OP_OK →
      ExecuteOpNode (fuel + 1) n = some (r, p)) ∧
    (∀ n₂ n₃ p, consumeNode (setConsuming n) = (OP_REFRESH, n₂) →
      resetNode n₂ = (OP_OK, n₃) →
      PullFromStreams (fuel + 1) n₃ = some (OP_OK, p) →
      ExecuteOpNode (fuel + 1) n = ExecuteOpNode fuel p) := by
  refine ⟨?_, ?_, ?_, ?_⟩
  · intro r n₂ hc hr
    unfold ExecuteOpNode
    dsimp only
    rw [hc]
    dsimp only
    rw [if_neg hr]
  · intro n₂ r₂ n₃ hc hrn hr2
    unfold ExecuteOpNode
    dsimp only
    rw [hc]
    dsimp only
    rw [if_pos rfl, hrn]
    cases r₂ with
    | OP_OK => exact absurd rfl hr2
    | OP_DEPLETED => rfl
    | OP_REFRESH => rfl
    | OP_ERR => rfl
  · intro n₂ n₃ r p hc hrn hp hr
    have hp' : PullFromStreamsAux (ExecuteOpNode fuel) n₃ = some (r, p) := hp
    unfold ExecuteOpNode
    dsimp only
    rw [hc]
    dsimp only
    rw [if_pos rfl, hrn]
    dsimp only
    rw [hp']
    cases r with
    | OP_OK => exact absurd rfl hr
    | OP_DEPLETED => rfl
    | OP_REFRESH => rfl
    | OP_ERR => rfl
  · intro n₂ n₃ p hc hrn hp
    have hp' : PullFromStreamsAux (ExecuteOpNode fuel) n₃ = some (OP_OK, p) := hp
    conv_lhs => unfold ExecuteOpNode
    dsimp only
    rw [hc]
    dsimp only
    rw [if_pos rfl, hrn]
    dsimp only
    rw [hp']

theorem ExecuteOpNode_driver_protocol_witness :
    consumeNode (setConsuming exLeaf) = (OP_DEPLETED, exLeafC) ∧
    OP_DEPLETED ≠ OP_REFRESH ∧
    ExecuteOpNode 1 exLeaf = some (OP_DEPLETED, exLeafC) :=
  ⟨rfl, by decide,
    (ExecuteOpNode_driver_protocol 0 exLeaf).1 OP_DEPLETED exLeafC rfl (by decide)⟩

/-- C8 counterexample: the claim states that `ResetStream` leaves every
operator node of the subtree in the `Uninitialized` stream state.  On
the concrete single-node stream `exConsuming`, whose stream state is
`Consuming`, the stream state after `ResetStream` is still `Consuming`,
not `Uninitialized`: `ResetStream` only invokes the operators' `reset`
and never touches the per-node stream-state field. -/
theorem ResetStream_state_counterexample :
    (ResetStream exConsuming).state = StreamConsuming ∧
    (ResetStream exConsuming).state ≠ StreamUnInitialized :=
  ⟨rfl, by decide⟩

/-- C8 (amended): `ResetStream s` invokes each operator's reset in
pre-order over the subtree of `s`; it is idempotent (two successive
resets yield the same state as one) provided each operator's reset is
idempotent on its cursor, and when each operator's reset rewinds the
cursor to that operator's start state, every cursor in the subtree is at
start afterwards; the per-node stream-state fields are left unchanged
(in particular they are not set to `Uninitialized`). -/
theorem ResetStream_preorder_idem_amended (t : OpNode σ) :
    (ResetStreamTrace t).2 = preorderIds t ∧
    (ResetStreamTrace t).1 = ResetStream t ∧
    (allBehaviors (fun b => ∀ s, (b.reset (b.reset s).2).2 = (b.reset s).2) t →
      ResetStream (ResetStream t) = ResetStream t) ∧
    (∀ start : OpBehavior σ → σ,
      allBehaviors (fun b => ∀ s, (b.reset s).2 = start b) t →
      cursors (ResetStream t) = (behaviorsOf t).map start) ∧
    streamStates (ResetStream t) = streamStates t :=
  ⟨resetStreamTrace_snd t, resetStreamTrace_fst t,
    fun h => resetStream_idem t h,
    fun start h => resetStream_cursors start t h,
    resetStream_streamStates t⟩

theorem ResetStream_preorder_idem_amended_witness :
    allBehaviors (fun b => ∀ s : Nat, (b.reset (b.reset s).2).2 = (b.reset s).2)
      exConsuming ∧
    ResetStream (ResetStream exConsuming) = ResetStream exConsuming ∧
    cursors (ResetStream exConsuming) = [0] := by
  have hidem : allBehaviors
      (fun b => ∀ s : Nat, (b.reset (b.reset s).2).2 = (b.reset s).2)
      exConsuming := ⟨fun _ => rfl, trivial⟩
  have hstart : allBehaviors
      (fun b => ∀ s : Nat, (b.reset s).2 = (fun _ : OpBehavior Nat => 0) b)
      exConsuming := ⟨fun _ => rfl, trivial⟩
  refine ⟨hidem, (ResetStream_preorder_idem_amended exConsuming).2.2.1 hidem, ?_⟩
  have h := (ResetStream_preorder_idem_amended exConsuming).2.2.2.1
    (fun _ : OpBehavior Nat => 0) hstart
  simpa using h

/-- C9: plan execution repeatedly invokes the driver on the root operator
while it returns `Ok`, stops at the first non-`Ok` result (which is
`Depleted` for normal termination or `Err` for failure, never
`Refresh`), and returns the result set accumulated by the root operator;
in particular on `Err` the loop stops at once — the result set
accumulated so far is returned and execution is not retried. -/
theorem ExecutionPlan_Execute_protocol (fuel : Nat) (root : OpNode σ) :
    (∀ r root', ExecuteOpNode (fuel + 1) root = some (r, root') → r ≠ OP_OK →
      executeLoop (fuel + 1) root = some (r, root') ∧
      ExecutionPlan_Execute (fuel + 1) root = some (rootResultSet root') ∧
      (r = OP_DEPLETED ∨ r = OP_ERR)) ∧
    (∀ root', ExecuteOpNode (fuel + 1) root = some (OP_OK, root') →
      executeLoop (fuel + 1) root = executeLoop fuel root' ∧
      ExecutionPlan_Execute (fuel + 1) root = ExecutionPlan_Execute fuel root') := by
  constructor
  · intro r root' h hr
    have hloop : executeLoop (fuel + 1) root = some (r, root') := by
      unfold executeLoop
      rw [h]
      cases r with
      | OP_OK => exact absurd rfl hr
      | OP_DEPLETED => rfl
      | OP_REFRESH => rfl
      | OP_ERR => rfl
    refine ⟨hloop, ?_, ?_⟩
    · unfold ExecutionPlan_Execute
      rw [hloop]
    · rcases ExecuteOpNode_result (fuel + 1) root h with h' | h' | h'
      · exact absurd h' hr
      · exact Or.inl h'
      · exact Or.inr h'
  · intro root' h
    have hloop : executeLoop (fuel + 1) root = executeLoop fuel root' := by
      conv_lhs => unfold executeLoop
      rw [h]
    refine ⟨hloop, ?_⟩
    unfold ExecutionPlan_Execute
    rw [hloop]

theorem ExecutionPlan_Execute_protocol_witness :
    ExecuteOpNode 1 exLeaf = some (OP_DEPLETED, exLeafC) ∧
    OP_DEPLETED ≠ OP_OK ∧
    executeLoop 1 exLeaf = some (OP_DEPLETED, exLeafC) ∧
    ExecutionPlan_Execute 1 exLeaf = some 0 := by
  have h := (ExecutionPlan_Execute_protocol 0 exLeaf).1 OP_DEPLETED exLeafC
    rfl (by decide)
  exact ⟨rfl, by decide, h.1, h.2.1⟩

/-- C10: for every operator node, the executor driver never returns the
`Refresh` signal to its caller: whenever `ExecuteOpNode` terminates with
a result, that result is `Ok`, `Depleted` or `Err`, never `Refresh` —
every `Refresh` produced by an operator's consume is absorbed by the
reset-and-pull-from-children path. -/
theorem ExecuteOpNode_never_refresh (fuel : Nat) (n : OpNode σ) (r : OpResult)
    (n' : OpNode σ) (h : ExecuteOpNode fuel n = some (r, n')) :
    r ≠ OP_REFRESH := by
  rcases ExecuteOpNode_result fuel n h with rfl | rfl | rfl <;> simp

theorem ExecuteOpNode_never_refresh_witness :
    ExecuteOpNode 1 exConsuming = some (OP_DEPLETED, exConsuming) ∧
    OP_DEPLETED ≠ OP_REFRESH :=
  ⟨rfl, ExecuteOpNode_never_refresh 1 exConsuming OP_DEPLETED exConsuming rfl⟩

/-! ## The planner: pattern graphs, filter trees and the plan arena.

The plan DAG is modelled as an arena: operator nodes live in a list and
are addressed by their index (the C code addresses them by pointer);
each node carries its operator and both adjacency lists, exactly like
the C `OpNode`.  Nodes are never deallocated by the rewrites, so indices
stay valid. -/

/-! ### Filter trees.

Modelled from the spec: the filter-tree module (`filter_tree.c`) is not
among the provided sources.  The spec describes a filter tree as an
expression tree of predicates; the three operations the planner needs
are `contains_any` (does the tree reference at least one alias in the
set?), `min_subtree` (extract the sub-expression whose free variables
are all in the set) and `remove_predicates` (prune every predicate whose
free variables are all in the set; the tree may become empty).  We model
a tree as the list of its predicates, each carrying its free variables;
the empty list plays the role of the `NULL` tree. -/

structure Pred where
  vars : List String
deriving DecidableEq, Repr

def FilterTree_ContainsNode (ft : List Pred) (seen : List String) : Bool :=
  ft.any (fun pr => pr.vars.any (fun v => seen.contains v))

def FilterTree_MinFilterTree (ft : List Pred) (seen : List String) : List Pred :=
  ft.filter (fun pr => pr.vars.all (fun v => seen.contains v))

def FilterTree_RemovePredNodes (ft : List Pred) (seen : List String) : List Pred :=
  ft.filter (fun pr => !(pr.vars.all (fun v => seen.contains v)))

/-! ### The pattern graph.

Modelled from the spec and from `graph.h` usage: nodes carry an alias,
an optional label and the list of outgoing edges; edges carry their
endpoints.  `Graph_GetNDegreeNodes g k` (not among the provided sources)
returns the pattern nodes whose in-degree is exactly `k`, in node
order. -/

structure QEdge where
  src : Nat
  dest : Nat
deriving DecidableEq, Repr

structure QNode where
  nodeAlias : String
  label : Option String
  outgoingEdges : List Nat
deriving DecidableEq, Repr

structure QGraph where
  nodes : List QNode
  edges : List QEdge
deriving DecidableEq, Repr

def Node_IncomeDegree (g : QGraph) (n : Nat) : Nat :=
  (g.edges.filter (fun e => e.dest == n)).length

def Graph_GetNDegreeNodes (g : QGraph) (k : Nat) : List Nat :=
  (List.range g.nodes.length).filter (fun n => Node_IncomeDegree g n == k)

def aliasOfNode (g : QGraph) (n : Nat) : String :=
  match g.nodes.get? n with
  | some nd => nd.nodeAlias
  | none => ""

def labelOfNode (g : QGraph) (n : Nat) : Option String :=
  match g.nodes.get? n with
  | some nd => nd.label
  | none => none

/-! ### Operators of the plan. -/

inductive OpType where
  | produceResults
  | aggregate
  | expandAll (src edgeId dest : Nat)
  | expandInto (src edgeId dest : Nat)
  | filterOp (tree : List Pred)
  | allNodeScan (node : Nat)
  | nodeByLabelScan (node : Nat) (label : String)
deriving DecidableEq, Repr

/-- Modelled from the spec: the `modifies` vectors are set by the operator
constructors (not among the provided sources).  Scans bind their node's
alias; `ExpandAll` produces its destination's binding; `ProduceResults`,
`Aggregate`, `Filter` and `ExpandInto` produce no new bindings. -/
def OpType.modifies (g : QGraph) : OpType → List String
  | .expandAll _ _ d => [aliasOfNode g d]
  | .allNodeScan n => [aliasOfNode g n]
  | .nodeByLabelScan n _ => [aliasOfNode g n]
  | _ => []

/-- An operator node of the plan arena: the C `OpNode` with its
`children` and `parents` adjacency lists (of node indices). -/
structure PlanNode where
  op : OpType
  children : List Nat
  parents : List Nat
deriving DecidableEq, Repr

/-- The C `ExecutionPlan` struct: the operator arena, the root index, and
the plan's filter tree. -/
structure ExecutionPlan where
  nodes : List PlanNode
  root : Nat
  filter_tree : List Pred
deriving DecidableEq, Repr

def getNode (p : ExecutionPlan) (i : Nat) : Option PlanNode :=
  p.nodes.get? i

def updateNode (p : ExecutionPlan) (i : Nat) (f : PlanNode → PlanNode) :
    ExecutionPlan :=
  match p.nodes.get? i with
  | some nd => { p with nodes := p.nodes.set i (f nd) }
  | none => p

/-- `NewOpNode`: allocate a fresh operator node (no children, no
parents), returning the updated arena and the new node's index. -/
def NewOpNode (p : ExecutionPlan) (op : OpType) : ExecutionPlan × Nat :=
  ({ p with nodes := p.nodes ++ [⟨op, [], []⟩] }, p.nodes.length)

/-- `_OpNode_ContainsChild` (lines 33-40). -/
def _OpNode_ContainsChild (p : ExecutionPlan) (parent child : Nat) : Bool :=
  match getNode p parent with
  | some nd => nd.children.contains child
  | none => false

/-- `_OpNode_AddChild` (lines 42-61): append `child` to the parent's
children and `parent` to the child's parents. -/
def _OpNode_AddChild (p : ExecutionPlan) (parent child : Nat) : ExecutionPlan :=
  let p₁ := updateNode p parent
    (fun nd => { nd with children := nd.children ++ [child] })
  updateNode p₁ child (fun nd => { nd with parents := nd.parents ++ [parent] })

/-- `_OpNode_RemoveNode` (lines 65-93): remove the first occurrence of
`b` from `a`'s children (shift-left) and the first occurrence of `a`
from `b`'s parents. -/
def _OpNode_RemoveNode (p : ExecutionPlan) (a b : Nat) : ExecutionPlan :=
  let p₁ := updateNode p a (fun nd => { nd with children := nd.children.erase b })
  updateNode p₁ b (fun nd => { nd with parents := nd.parents.erase a })

def _OpNode_RemoveChild (p : ExecutionPlan) (parent child : Nat) : ExecutionPlan :=
  _OpNode_RemoveNode p parent child

/-- The `while(parent->childCount != 0)` loop of `_OpNode_PushInBetween`
(lines 106-109): repeatedly move the parent's first child beneath
`onlyChild`.  Each iteration removes one child, so the initial child
count is enough fuel. -/
def pushInBetweenLoop : Nat → ExecutionPlan → Nat → Nat → ExecutionPlan
  | 0, p, _, _ => p
  | fuel + 1, p, parent, onlyChild =>
    match getNode p parent with
    | none => p
    | some nd =>
      match nd.children with
      | [] => p
      | c :: _ =>
        pushInBetweenLoop fuel
          (_OpNode_RemoveChild (_OpNode_AddChild p onlyChild c) parent c)
          parent onlyChild

/-- `_OpNode_PushInBetween` (lines 103-112). -/
def _OpNode_PushInBetween (p : ExecutionPlan) (parent onlyChild : Nat) :
    ExecutionPlan :=
  let fuel := match getNode p parent with
    | some nd => nd.children.length
    | none => 0
  _OpNode_AddChild (pushInBetweenLoop fuel p parent onlyChild) parent onlyChild

/-! ### The plan builder `NewExecutionPlan` (lines 296-417).

The `Ops` vector of staged operators is a stack (`Vector_Push` appends
and `Vector_Pop` removes the last element, as the source's own "Consume
Ops in reversed order" comments state); it is modelled as a list whose
head is the stack top.  `BuildGraph` and the AST are out of source scope:
the builder takes the pattern graph, an aggregation flag
(`ReturnClause_ContainsAggregation`) and the optional `WHERE` tree
directly. -/

/-- The expansion-chain walk (lines 340-352): starting from an entry
node, follow the first outgoing edge of each node, emitting one
`ExpandAll(src, edge, dest)` per hop and collecting the new operator
nodes in walk order (the C `reversedExpandOps` push order).  The C loop
diverges on a cyclic pattern, hence the fuel. -/
def buildChain (g : QGraph) :
    Nat → ExecutionPlan → Nat → List Nat → Option (ExecutionPlan × List Nat)
  | 0, _, _, _ => none
  | fuel + 1, p, srcNode, revOps =>
    match g.nodes.get? srcNode with
    | none => none
    | some nd =>
      match nd.outgoingEdges with
      | [] => some (p, revOps)
      | e :: _ =>
        match g.edges.get? e with
        | none => none
        | some edge =>
          let r := NewOpNode p (.expandAll srcNode e edge.dest)
          buildChain g fuel r.1 edge.dest (revOps ++ [r.2])

/-- The `do { ... } while(Vector_Size(Ops) != 0)` linking loop (lines
380-387): pop operators and connect them in reversed order, each popped
operator becoming the parent of the previously popped one. -/
def linkChain : ExecutionPlan → Nat → List Nat → ExecutionPlan
  | p, _, [] => p
  | p, prevOp, currentOp :: rest =>
    linkChain (_OpNode_AddChild p currentOp prevOp) currentOp rest

/-- The entry-node loop of `NewExecutionPlan` (lines 327-392).  `ops` is
the `Ops` stack (head = top).  Popping the whole of `reversedExpandOps`
onto `Ops` makes the first-emitted expansion the stack top, i.e.
`ops := revOps ++ ops`. -/
def buildEntryLoop (g : QGraph) (fuel : Nat) :
    ExecutionPlan → List Nat → List Nat → Option ExecutionPlan
  | p, _, [] => some p
  | p, ops, node :: rest =>
    match g.nodes.get? node with
    | none => none
    | some nd =>
      match
        (if nd.outgoingEdges.length > 0 then
          match buildChain g fuel p node [] with
          | none => none
          | some (p₁, revOps) => some (p₁, revOps ++ ops)
        else
          let scanOp := match nd.label with
            | some l => OpType.nodeByLabelScan node l
            | none => OpType.allNodeScan node
          let r := NewOpNode p scanOp
          some (r.1, r.2 :: ops) : Option (ExecutionPlan × List Nat))
      with
      | none => none
      | some (p₁, ops₁) =>
        if ops₁.length > 1 then
          match ops₁ with
          | [] => none
          | prevOp :: rest' =>
            buildEntryLoop g fuel (linkChain p₁ prevOp rest') [p₁.root] rest
        else buildEntryLoop g fuel p₁ ops₁ rest

/-- `NewExecutionPlan` up to (and excluding) the optimization passes
(lines 296-394): create the `ProduceResults` root, record the `WHERE`
tree, stage an `Aggregate` when the return clause aggregates, then build
and link one operator chain (or lone scan) per entry node. -/
def NewExecutionPlan (g : QGraph) (hasAggregation : Bool)
    (whereTree : Option (List Pred)) (fuel : Nat) : Option ExecutionPlan :=
  let p₀ : ExecutionPlan :=
    { nodes := [⟨.produceResults, [], []⟩], root := 0,
      filter_tree := whereTree.getD [] }
  let st :=
    if hasAggregation then
      let r := NewOpNode p₀ .aggregate
      (r.1, r.2 :: [p₀.root])
    else (p₀, [p₀.root])
  buildEntryLoop g fuel st.1 st.2 (Graph_GetNDegreeNodes g 0)

/-! ### `_ExecutionPlan_OptimizeEntryPoints` (lines 203-236). -/

/-- The `for` loop over the children in the else-branch, parameterized
over the recursive call. -/
def optimizeChildrenLoop (f : ExecutionPlan → Nat → Option ExecutionPlan) :
    ExecutionPlan → List Nat → Option ExecutionPlan
  | p, [] => some p
  | p, c :: cs =>
    match f p c with
    | none => none
    | some p' => optimizeChildrenLoop f p' cs

/-- `_ExecutionPlan_OptimizeEntryPoints`: at a childless `ExpandAll`
leaf, attach a scan of the expansion's source node (`NodeByLabelScan`
when the source has a label, `AllNodeScan` otherwise; the
cardinality-based choice of endpoint is commented out in the source, so
the entry point is always the source); otherwise recurse into the
children. -/
def _ExecutionPlan_OptimizeEntryPoints (g : QGraph) :
    Nat → ExecutionPlan → Nat → Option ExecutionPlan
  | 0, _, _ => none
  | fuel + 1, p, root =>
    match getNode p root with
    | none => none
    | some nd =>
      match nd.children, nd.op with
      | [], .expandAll src _ _ =>
        let scanOp := match labelOfNode g src with
          | some l => OpType.nodeByLabelScan src l
          | none => OpType.allNodeScan src
        let r := NewOpNode p scanOp
        some (_OpNode_AddChild r.1 root r.2)
      | ch, _ =>
        optimizeChildrenLoop
          (fun p' c => _ExecutionPlan_OptimizeEntryPoints g fuel p' c) p ch

/-! ### `_ExecutionPlan_MergeNodes` (lines 120-193). -/

/-- Does this operator's type equal `OPType_EXPAND_ALL` with `n` as its
destination node reference? (Line 139-142.) -/
def isExpandAllDest (op : OpType) (n : Nat) : Bool :=
  match op with
  | .expandAll _ _ d => d == n
  | _ => false

/-- The worklist search for the two expand operations whose destination
is `n` (lines 128-157).  Modelled from the source's vector usage:
`Vector_Push` appends at the end and `Vector_Pop` removes the last
pushed element (the builder's "Save expand ops in reverse order" /
"Consume Ops in reversed order" comments pin this last-in-first-out
behaviour), so `nodesToVisit` is a stack, modelled as a list whose head
is the top.  Pushing the children of the current node in order makes the
last child the next node visited.  When the first match `a` is found its
children are not pushed (the `continue`); at the second match the search
stops (the `break`). -/
def locateLoop (p : ExecutionPlan) (n : Nat) :
    Nat → List Nat → Option Nat → Option Nat × Option Nat
  | 0, _, a => (a, none)
  | _ + 1, [], a => (a, none)
  | fuel + 1, current :: stack, a =>
    match getNode p current with
    | none => locateLoop p n fuel stack a
    | some nd =>
      if isExpandAllDest nd.op n then
        match a with
        | none => locateLoop p n fuel stack (some current)
        | some a0 => (some a0, some current)
      else locateLoop p n fuel (nd.children.reverse ++ stack) a

/-- The `for(i = 0; i < b->parentCount; i++)` loop (lines 180-192),
iterated against the live parents list exactly as the C code does: the
index advances every iteration while `_OpNode_RemoveChild` shrinks the
list in place. -/
def inheritParentsLoop :
    Nat → ExecutionPlan → Nat → Nat → Nat → ExecutionPlan
  | 0, p, _, _, _ => p
  | fuel + 1, p, expandIntoId, bId, i =>
    match getNode p bId with
    | none => p
    | some bn =>
      if h : i < bn.parents.length then
        let bParent := bn.parents.get ⟨i, h⟩
        if bParent = expandIntoId then
          inheritParentsLoop fuel p expandIntoId bId (i + 1)
        else
          let p₁ :=
            if _OpNode_ContainsChild p bParent expandIntoId then p
            else _OpNode_AddChild p bParent expandIntoId
          inheritParentsLoop fuel (_OpNode_RemoveChild p₁ bParent bId)
            expandIntoId bId (i + 1)
      else p

/-- `_ExecutionPlan_MergeNodes`: for a pattern node of in-degree exactly
2, locate two `ExpandAll` operators with that destination; replace the
first one's operation by an `ExpandInto` built from its (source, edge,
destination), add the second beneath it, and let it inherit the second's
other parents. -/
def _ExecutionPlan_MergeNodes (g : QGraph) (fuel : Nat) (p : ExecutionPlan)
    (n : Nat) : ExecutionPlan :=
  if Node_IncomeDegree g n ≠ 2 then p
  else
    match locateLoop p n fuel [p.root] none with
    | (some a, some b) =>
      match getNode p a with
      | some an =>
        match an.op with
        | .expandAll src e dest =>
          let p₁ := updateNode p a (fun nd => { nd with op := .expandInto src e dest })
          let p₂ := _OpNode_AddChild p₁ a b
          let bParentsLen := match getNode p₂ b with
            | some bn => bn.parents.length
            | none => 0
          inheritParentsLoop (bParentsLen + 1) p₂ a b 0
        | _ => p
      | none => p
    | _ => p

/-- The loop over `Graph_GetNDegreeNodes(graph, 2)` (lines 399-404). -/
def mergeNodesLoop (g : QGraph) (fuel : Nat) :
    ExecutionPlan → List Nat → ExecutionPlan
  | p, [] => p
  | p, n :: rest => mergeNodesLoop g fuel (_ExecutionPlan_MergeNodes g fuel p n) rest

/-! ### `_ExecutionPlan_AddFilters` (lines 238-294). -/

/-- The `for(int i = root->childCount-1; i >= 0; i--)` loop (lines
251-271), parameterized over the recursive call and applied to the
reversed children list.  After each child: if the filter tree became
empty, return `NULL` (the remaining children untouched); otherwise push
the child's returned `saw` aliases onto `seen`. -/
def addFiltersChildrenLoop
    (f : ExecutionPlan → List Pred → Nat →
      Option (ExecutionPlan × List Pred × Option (List String))) :
    ExecutionPlan → List Pred → List Nat →
    Option (ExecutionPlan × List Pred × Option (List String))
  | p, ft, [] => some (p, ft, some [])
  | p, ft, c :: cs =>
    match f p ft c with
    | none => none
    | some (p₁, ft₁, saw) =>
      if ft₁.isEmpty then some (p₁, ft₁, none)
      else
        match addFiltersChildrenLoop f p₁ ft₁ cs with
        | none => none
        | some (p₂, ft₂, none) => some (p₂, ft₂, none)
        | some (p₂, ft₂, some seenRest) =>
          some (p₂, ft₂, some (saw.getD [] ++ seenRest))

/-- `_ExecutionPlan_AddFilters`: post-order walk threading the global
filter tree; after the children, if the tree references any alias in
`seen`, extract the minimum tree, prune the global tree, and push a new
`Filter` node in between the current operator and its children; finally
append the current operator's own `modifies` to the returned `saw`.  The
`none` in the third component is the C `NULL` return of the `saw`
vector. -/
def _ExecutionPlan_AddFilters (g : QGraph) :
    Nat → ExecutionPlan → List Pred → Nat →
    Option (ExecutionPlan × List Pred × Option (List String))
  | 0, _, _, _ => none
  | fuel + 1, p, ft, root =>
    match getNode p root with
    | none => some (p, ft, none)
    | some nd =>
      match addFiltersChildrenLoop
          (fun p' ft' c => _ExecutionPlan_AddFilters g fuel p' ft' c)
          p ft nd.children.reverse with
      | none => none
      | some (p₁, ft₁, none) => some (p₁, ft₁, none)
      | some (p₁, ft₁, some seen) =>
        let step :=
          if FilterTree_ContainsNode ft₁ seen then
            let minTree := FilterTree_MinFilterTree ft₁ seen
            let ft₂ := FilterTree_RemovePredNodes ft₁ seen
            let r := NewOpNode p₁ (.filterOp minTree)
            (_OpNode_PushInBetween r.1 root r.2, ft₂)
          else (p₁, ft₁)
        some (step.1, step.2, some (seen ++ nd.op.modifies g))

/-- The whole of `NewExecutionPlan` (lines 296-417): build the chains,
attach the entry-point scans, merge the expansions into the in-degree-2
pattern nodes, and push the filters down (only when a `WHERE` clause is
present). -/
def NewExecutionPlanFull (g : QGraph) (hasAggregation : Bool)
    (whereTree : Option (List Pred)) (fuel : Nat) : Option ExecutionPlan :=
  match NewExecutionPlan g hasAggregation whereTree fuel with
  | none => none
  | some p =>
    match _ExecutionPlan_OptimizeEntryPoints g fuel p p.root with
    | none => none
    | some p₁ =>
      let p₂ := mergeNodesLoop g fuel p₁ (Graph_GetNDegreeNodes g 2)
      match whereTree with
      | none => some p₂
      | some _ =>
        match _ExecutionPlan_AddFilters g fuel p₂ p₂.filter_tree p₂.root with
        | none => none
        | some (p₃, ft₃, _) => some { p₃ with filter_tree := ft₃ }

/-! ### Observations on plans: operator lists and expansion counts. -/

/-- The operators of the arena, in allocation order. -/
def planOps (p : ExecutionPlan) : List OpType := p.nodes.map (·.op)

def isExpandIntoDest (op : OpType) (n : Nat) : Bool :=
  match op with
  | .expandInto _ _ d => d == n
  | _ => false

/-- The number of `ExpandAll` operators in the plan whose destination is
the pattern node `n`. -/
def countExpandAllDest (p : ExecutionPlan) (n : Nat) : Nat :=
  (planOps p).countP (fun op => isExpandAllDest op n)

/-- The number of `ExpandInto` operators in the plan whose destination
is the pattern node `n`. -/
def countExpandIntoDest (p : ExecutionPlan) (n : Nat) : Nat :=
  (planOps p).countP (fun op => isExpandIntoDest op n)

/-! ### List helper lemmas. -/

theorem set_of_get?_eq {α : Type _} :
    ∀ (l : List α) (i : Nat) (v : α), l.get? i = some v → l.set i v = l
  | [], _, _, h => by cases h
  | a :: as, 0, v, h => by
    simp only [List.get?] at h
    cases h
    rfl
  | a :: as, i + 1, v, h => by
    simp only [List.get?] at h
    simp [List.set, set_of_get?_eq as i v h]

theorem countP_set_of_not {α : Type _} (pred : α → Bool) :
    ∀ (l : List α) (i : Nat) (x y : α), l.get? i = some y → pred y = false →
    (l.set i x).countP pred = l.countP pred + (if pred x then 1 else 0)
  | [], _, _, _, h, _ => by cases h
  | a :: as, 0, x, y, h, hy => by
    simp only [List.get?] at h
    cases h
    cases hx : pred x <;> simp [List.set, List.countP_cons, hy, hx]
  | a :: as, i + 1, x, y, h, hy => by
    simp only [List.get?] at h
    simp only [List.set, List.countP_cons]
    rw [countP_set_of_not pred as i x y h hy]
    omega

/-! ### Plan rewrites preserve the operator list (except where stated). -/

theorem planOps_updateNode_of_op_eq (p : ExecutionPlan) (i : Nat)
    (f : PlanNode → PlanNode) (hf : ∀ nd, (f nd).op = nd.op) :
    planOps (updateNode p i f) = planOps p := by
  unfold updateNode
  cases h : p.nodes.get? i with
  | none => rfl
  | some nd =>
    simp only [planOps, List.map_set]
    rw [hf nd]
    apply set_of_get?_eq
    rw [List.get?_map, h]
    rfl

theorem planOps_AddChild (p : ExecutionPlan) (x y : Nat) :
    planOps (_OpNode_AddChild p x y) = planOps p := by
  unfold _OpNode_AddChild
  rw [planOps_updateNode_of_op_eq, planOps_updateNode_of_op_eq] <;>
    intro nd <;> rfl

theorem planOps_RemoveNode (p : ExecutionPlan) (x y : Nat) :
    planOps (_OpNode_RemoveNode p x y) = planOps p := by
  unfold _OpNode_RemoveNode
  rw [planOps_updateNode_of_op_eq, planOps_updateNode_of_op_eq] <;>
    intro nd <;> rfl

theorem planOps_pushInBetweenLoop :
    ∀ (fuel : Nat) (p : ExecutionPlan) (parent onlyChild : Nat),
    planOps (pushInBetweenLoop fuel p parent onlyChild) = planOps p
  | 0, _, _, _ => rfl
  | fuel + 1, p, parent, onlyChild => by
    unfold pushInBetweenLoop
    cases getNode p parent with
    | none => rfl
    | some nd =>
      dsimp only
      cases hch : nd.children with
      | nil => rfl
      | cons c rest =>
        rw [planOps_pushInBetweenLoop fuel, _OpNode_RemoveChild,
          planOps_RemoveNode, planOps_AddChild]

theorem planOps_PushInBetween (p : ExecutionPlan) (parent onlyChild : Nat) :
    planOps (_OpNode_PushInBetween p parent onlyChild) = planOps p := by
  unfold _OpNode_PushInBetween
  rw [planOps_AddChild, planOps_pushInBetweenLoop]

theorem planOps_inheritParentsLoop :
    ∀ (fuel : Nat) (p : ExecutionPlan) (a b i : Nat),
    planOps (inheritParentsLoop fuel p a b i) = planOps p
  | 0, _, _, _, _ => rfl
  | fuel + 1, p, a, b, i => by
    unfold inheritParentsLoop
    cases getNode p b with
    | none => rfl
    | some bn =>
      dsimp only
      by_cases h : i < bn.parents.length
      · rw [dif_pos h]
        by_cases hpar : bn.parents.get ⟨i, h⟩ = a
        · rw [if_pos hpar, planOps_inheritParentsLoop fuel]
        · rw [if_neg hpar, planOps_inheritParentsLoop fuel, _OpNode_RemoveChild,
            planOps_RemoveNode]
          by_cases hcc : _OpNode_ContainsChild p (bn.parents.get ⟨i, h⟩) a
          · rw [if_pos hcc]
          · rw [if_neg hcc, planOps_AddChild]
      · rw [dif_neg h]

theorem planOps_NewOpNode (p : ExecutionPlan) (op : OpType) :
    planOps (NewOpNode p op).1 = planOps p ++ [op] := by
  simp [NewOpNode, planOps]

theorem planOps_linkChain :
    ∀ (l : List Nat) (p : ExecutionPlan) (prevOp : Nat),
    planOps (linkChain p prevOp l) = planOps p
  | [], _, _ => rfl
  | c :: cs, p, prevOp => by
    unfold linkChain
    rw [planOps_linkChain cs, planOps_AddChild]

/-! ### The builder and the scan/filter passes never create `ExpandInto`
operators; only `_ExecutionPlan_MergeNodes` does. -/

/-- No operator in the list is an `ExpandInto`. -/
def NoInto (l : List OpType) : Prop :=
  ∀ op ∈ l, ∀ s e d, op ≠ OpType.expandInto s e d

theorem NoInto_append {l₁ l₂ : List OpType} (h₁ : NoInto l₁) (h₂ : NoInto l₂) :
    NoInto (l₁ ++ l₂) := by
  intro op hop s e d
  rcases List.mem_append.1 hop with h | h
  · exact h₁ op h s e d
  · exact h₂ op h s e d

theorem countInto_eq_zero_of_NoInto {l : List OpType} (h : NoInto l) (d : Nat) :
    l.countP (fun op => isExpandIntoDest op d) = 0 := by
  apply List.countP_eq_zero.mpr
  intro op hop hcon
  cases op with
  | expandInto s e d₀ => exact h _ hop s e d₀ rfl
  | produceResults => simp [isExpandIntoDest] at hcon
  | aggregate => simp [isExpandIntoDest] at hcon
  | expandAll s e d₀ => simp [isExpandIntoDest] at hcon
  | filterOp t => simp [isExpandIntoDest] at hcon
  | allNodeScan n => simp [isExpandIntoDest] at hcon
  | nodeByLabelScan n l => simp [isExpandIntoDest] at hcon

theorem buildChain_planOps (g : QGraph) :
    ∀ (fuel : Nat) (p : ExecutionPlan) (src : Nat) (rev : List Nat)
      (p' : ExecutionPlan) (rev' : List Nat),
    buildChain g fuel p src rev = some (p', rev') →
    ∃ s, planOps p' = planOps p ++ s ∧ NoInto s := by
  intro fuel
  induction fuel with
  | zero => intro p src rev p' rev' h; cases h
  | succ fuel ih =>
    intro p src rev p' rev' h
    unfold buildChain at h
    cases hg : g.nodes.get? src with
    | none => rw [hg] at h; cases h
    | some nd =>
      rw [hg] at h
      dsimp only at h
      cases hout : nd.outgoingEdges with
      | nil =>
        rw [hout] at h
        simp only [Option.some.injEq, Prod.mk.injEq] at h
        rcases h with ⟨rfl, -⟩
        exact ⟨[], by simp, by intro op hop; cases hop⟩
      | cons e es =>
        rw [hout] at h
        dsimp only at h
        cases he : g.edges.get? e with
        | none => rw [he] at h; cases h
        | some edge =>
          rw [he] at h
          dsimp only at h
          rcases ih _ _ _ _ _ h with ⟨s, hs, hnos⟩
          refine ⟨OpType.expandAll src e edge.dest :: s, ?_, ?_⟩
          · rw [hs, planOps_NewOpNode]
            simp
          · intro op hop s₀ e₀ d₀
            rcases List.mem_cons.1 hop with rfl | hmem
            · simp
            · exact hnos op hmem s₀ e₀ d₀

theorem buildEntryLoop_planOps (g : QGraph) (fuel : Nat) :
    ∀ (entries : List Nat) (p : ExecutionPlan) (ops : List Nat)
      (p' : ExecutionPlan),
    buildEntryLoop g fuel p ops entries = some p' →
    ∃ s, planOps p' = planOps p ++ s ∧ NoInto s := by
  intro entries
  induction entries with
  | nil =>
    intro p ops p' h
    cases h
    exact ⟨[], by simp, by intro op hop; cases hop⟩
  | cons node rest ih =>
    intro p ops p' h
    unfold buildEntryLoop at h
    cases hg : g.nodes.get? node with
    | none => rw [hg] at h; cases h
    | some nd =>
      rw [hg] at h
      dsimp only at h
      have main :
          ∀ (p₁ : ExecutionPlan) (ops₁ : List Nat),
          (∃ s, planOps p₁ = planOps p ++ s ∧ NoInto s) →
          (if ops₁.length > 1 then
            match ops₁ with
            | [] => none
            | prevOp :: rest' =>
              buildEntryLoop g fuel (linkChain p₁ prevOp rest') [p₁.root] rest
          else buildEntryLoop g fuel p₁ ops₁ rest) = some p' →
          ∃ s, planOps p' = planOps p ++ s ∧ NoInto s := by
        intro p₁ ops₁ hext hrun
        rcases hext with ⟨s₁, hs₁, hno₁⟩
        by_cases hlen : ops₁.length > 1
        · rw [if_pos hlen] at hrun
          cases ops₁ with
          | nil => cases hrun
          | cons prevOp rest' =>
            rcases ih _ _ _ hrun with ⟨s₂, hs₂, hno₂⟩
            rw [planOps_linkChain] at hs₂
            exact ⟨s₁ ++ s₂, by rw [hs₂, hs₁, List.append_assoc],
              NoInto_append hno₁ hno₂⟩
        · rw [if_neg hlen] at hrun
          rcases ih _ _ _ hrun with ⟨s₂, hs₂, hno₂⟩
          exact ⟨s₁ ++ s₂, by rw [hs₂, hs₁, List.append_assoc],
            NoInto_append hno₁ hno₂⟩
      by_cases hedges : nd.outgoingEdges.length > 0
      · rw [if_pos hedges] at h
        cases hbc : buildChain g fuel p node [] with
        | none => rw [hbc] at h; cases h
        | some r =>
          rcases r with ⟨p₁, revOps⟩
          rw [hbc] at h
          dsimp only at h
          rcases buildChain_planOps g fuel p node [] p₁ revOps hbc with hext
          exact main p₁ (revOps ++ ops) hext h
      · rw [if_neg hedges] at h
        dsimp only at h
        refine main _ _ ?_ h
        refine ⟨[(match nd.label with
          | some l => OpType.nodeByLabelScan node l
          | none => OpType.allNodeScan node)], ?_, ?_⟩
        · rw [planOps_NewOpNode]
        · intro op hop s₀ e₀ d₀
          rcases List.mem_singleton.1 hop with rfl
          cases nd.label <;> simp

theorem NewExecutionPlan_NoInto (g : QGraph) (hasAggregation : Bool)
    (whereTree : Option (List Pred)) (fuel : Nat) (p : ExecutionPlan)
    (h : NewExecutionPlan g hasAggregation whereTree fuel = some p) :
    NoInto (planOps p) := by
  unfold NewExecutionPlan at h
  dsimp only at h
  by_cases hagg : hasAggregation
  · rw [if_pos hagg] at h
    rcases buildEntryLoop_planOps g fuel _ _ _ _ h with ⟨s, hs, hno⟩
    rw [hs]
    refine NoInto_append ?_ hno
    intro op hop s₀ e₀ d₀
    simp only [planOps, NewOpNode, List.map_append, List.map_cons] at hop
    rcases List.mem_append.1 hop with hm | hm
    · rcases List.mem_singleton.1 (by simpa using hm) with rfl
      simp
    · rcases List.mem_singleton.1 (by simpa using hm) with rfl
      simp
  · rw [if_neg hagg] at h
    rcases buildEntryLoop_planOps g fuel _ _ _ _ h with ⟨s, hs, hno⟩
    rw [hs]
    refine NoInto_append ?_ hno
    intro op hop s₀ e₀ d₀
    rcases List.mem_singleton.1 (by simpa [planOps] using hop) with rfl
    simp

theorem optimizeChildrenLoop_planOps
    (f : ExecutionPlan → Nat → Option ExecutionPlan)
    (hf : ∀ p c p', f p c = some p' →
      ∃ s, planOps p' = planOps p ++ s ∧ NoInto s) :
    ∀ (l : List Nat) (p : ExecutionPlan) (p' : ExecutionPlan),
    optimizeChildrenLoop f p l = some p' →
    ∃ s, planOps p' = planOps p ++ s ∧ NoInto s := by
  intro l
  induction l with
  | nil =>
    intro p p' h
    cases h
    exact ⟨[], by simp, by intro op hop; cases hop⟩
  | cons c cs ih =>
    intro p p' h
    unfold optimizeChildrenLoop at h
    cases hc : f p c with
    | none => rw [hc] at h; cases h
    | some p₁ =>
      rw [hc] at h
      dsimp only at h
      rcases hf p c p₁ hc with ⟨s₁, hs₁, hno₁⟩
      rcases ih p₁ p' h with ⟨s₂, hs₂, hno₂⟩
      exact ⟨s₁ ++ s₂, by rw [hs₂, hs₁, List.append_assoc],
        NoInto_append hno₁ hno₂⟩

theorem optimize_planOps (g : QGraph) :
    ∀ (fuel : Nat) (p : ExecutionPlan) (root : Nat) (p' : ExecutionPlan),
    _ExecutionPlan_OptimizeEntryPoints g fuel p root = some p' →
    ∃ s, planOps p' = planOps p ++ s ∧ NoInto s := by
  intro fuel
  induction fuel with
  | zero => intro p root p' h; cases h
  | succ fuel ih =>
    intro p root p' h
    unfold _ExecutionPlan_OptimizeEntryPoints at h
    cases hg : getNode p root with
    | none => rw [hg] at h; cases h
    | some nd =>
      rw [hg] at h
      dsimp only at h
      rcases hch : nd.children with - | ⟨c, cs⟩
      · rw [hch] at h
        cases hop : nd.op with
        | expandAll src e d =>
          rw [hop] at h
          dsimp only at h
          simp only [Option.some.injEq] at h
          subst h
          refine ⟨[(match labelOfNode g src with
            | some l => OpType.nodeByLabelScan src l
            | none => OpType.allNodeScan src)], ?_, ?_⟩
          · rw [planOps_AddChild, planOps_NewOpNode]
          · intro op hop₀ s₀ e₀ d₀
            rcases List.mem_singleton.1 hop₀ with rfl
            cases labelOfNode g src <;> simp
        | produceResults =>
          rw [hop] at h
          exact optimizeChildrenLoop_planOps _ (fun p c p' => ih p c p') _ _ _ h
        | aggregate =>
          rw [hop] at h
          exact optimizeChildrenLoop_planOps _ (fun p c p' => ih p c p') _ _ _ h
        | expandInto s e d =>
          rw [hop] at h
          exact optimizeChildrenLoop_planOps _ (fun p c p' => ih p c p') _ _ _ h
        | filterOp t =>
          rw [hop] at h
          exact optimizeChildrenLoop_planOps _ (fun p c p' => ih p c p') _ _ _ h
        | allNodeScan nn =>
          rw [hop] at h
          exact optimizeChildrenLoop_planOps _ (fun p c p' => ih p c p') _ _ _ h
        | nodeByLabelScan nn ll =>
          rw [hop] at h
          exact optimizeChildrenLoop_planOps _ (fun p c p' => ih p c p') _ _ _ h
      · rw [hch] at h
        exact optimizeChildrenLoop_planOps _ (fun p c p' => ih p c p') _ _ _ h

theorem addFiltersChildrenLoop_planOps
    (f : ExecutionPlan → List Pred → Nat →
      Option (ExecutionPlan × List Pred × Option (List String)))
    (hf : ∀ p ft c r, f p ft c = some r →
      ∃ s, planOps r.1 = planOps p ++ s ∧ NoInto s) :
    ∀ (l : List Nat) (p : ExecutionPlan) (ft : List Pred)
      (r : ExecutionPlan × List Pred × Option (List String)),
    addFiltersChildrenLoop f p ft l = some r →
    ∃ s, planOps r.1 = planOps p ++ s ∧ NoInto s := by
  intro l
  induction l with
  | nil =>
    intro p ft r h
    cases h
    exact ⟨[], by simp, by intro op hop; cases hop⟩
  | cons c cs ih =>
    intro p ft r h
    unfold addFiltersChildrenLoop at h
    cases hc : f p ft c with
    | none => rw [hc] at h; cases h
    | some r₁ =>
      rcases r₁ with ⟨p₁, ft₁, saw⟩
      rw [hc] at h
      dsimp only at h
      rcases hf p ft c _ hc with ⟨s₁, hs₁, hno₁⟩
      by_cases hemp : ft₁.isEmpty
      · rw [if_pos hemp] at h
        simp only [Option.some.injEq] at h
        subst h
        exact ⟨s₁, hs₁, hno₁⟩
      · rw [if_neg hemp] at h
        cases hrec : addFiltersChildrenLoop f p₁ ft₁ cs with
        | none => rw [hrec] at h; cases h
        | some r₂ =>
          rcases r₂ with ⟨p₂, ft₂, saw₂⟩
          rw [hrec] at h
          rcases ih p₁ ft₁ _ hrec with ⟨s₂, hs₂, hno₂⟩
          have hgoal : ∃ s, planOps p₂ = planOps p ++ s ∧ NoInto s :=
            ⟨s₁ ++ s₂, by rw [hs₂, hs₁, List.append_assoc],
              NoInto_append hno₁ hno₂⟩
          cases saw₂ with
          | none =>
            dsimp only at h
            simp only [Option.some.injEq] at h
            subst h
            exact hgoal
          | some seenRest =>
            dsimp only at h
            simp only [Option.some.injEq] at h
            subst h
            exact hgoal

theorem addFilters_planOps (g : QGraph) :
    ∀ (fuel : Nat) (p : ExecutionPlan) (ft : List Pred) (root : Nat)
      (r : ExecutionPlan × List Pred × Option (List String)),
    _ExecutionPlan_AddFilters g fuel p ft root = some r →
    ∃ s, planOps r.1 = planOps p ++ s ∧ NoInto s := by
  intro fuel
  induction fuel with
  | zero => intro p ft root r h; cases h
  | succ fuel ih =>
    intro p ft root r h
    unfold _ExecutionPlan_AddFilters at h
    cases hg : getNode p root with
    | none =>
      rw [hg] at h
      simp only [Option.some.injEq] at h
      subst h
      exact ⟨[], by simp, by intro op hop; cases hop⟩
    | some nd =>
      rw [hg] at h
      dsimp only at h
      cases hloop : addFiltersChildrenLoop
          (fun p' ft' c => _ExecutionPlan_AddFilters g fuel p' ft' c)
          p ft nd.children.reverse with
      | none => rw [hloop] at h; cases h
      | some r₁ =>
        rcases r₁ with ⟨p₁, ft₁, saw⟩
        rw [hloop] at h
        have hext : ∃ s, planOps p₁ = planOps p ++ s ∧ NoInto s :=
          addFiltersChildrenLoop_planOps _
            (fun p' ft' c r' h' => ih p' ft' c r' h') _ _ _ _ hloop
        rcases hext with ⟨s₁, hs₁, hno₁⟩
        cases saw with
        | none =>
          dsimp only at h
          simp only [Option.some.injEq] at h
          subst h
          exact ⟨s₁, hs₁, hno₁⟩
        | some seen =>
          dsimp only at h
          simp only [Option.some.injEq] at h
          subst h
          by_cases hcont : FilterTree_ContainsNode ft₁ seen
          · dsimp only
            rw [if_pos hcont]
            refine ⟨s₁ ++ [OpType.filterOp (FilterTree_MinFilterTree ft₁ seen)],
              ?_, ?_⟩
            · dsimp only
              rw [planOps_PushInBetween, planOps_NewOpNode, hs₁,
                List.append_assoc]
            · refine NoInto_append hno₁ ?_
              intro op hop s₀ e₀ d₀
              rcases List.mem_singleton.1 hop with rfl
              simp
          · dsimp only
            rw [if_neg hcont]
            exact ⟨s₁, hs₁, hno₁⟩

/-! ### The search order of `_ExecutionPlan_MergeNodes`. -/

/-- The candidates (`ExpandAll` operators with destination `n`) in the
order in which the worklist traversal of `_ExecutionPlan_MergeNodes`
encounters them: a depth-first, rightmost-child-first order that does
not descend below a candidate. -/
def dfsCandidates (p : ExecutionPlan) (n : Nat) :
    Nat → List Nat → List Nat
  | 0, _ => []
  | _ + 1, [] => []
  | fuel + 1, current :: stack =>
    match getNode p current with
    | none => dfsCandidates p n fuel stack
    | some nd =>
      if isExpandAllDest nd.op n then current :: dfsCandidates p n fuel stack
      else dfsCandidates p n fuel (nd.children.reverse ++ stack)

/-- Claim-side definition (following the claim's words): the
breadth-first order of the plan nodes starting from a queue, children
enqueued in order at the back. -/
def bfsOrder (p : ExecutionPlan) : Nat → List Nat → List Nat
  | 0, _ => []
  | _ + 1, [] => []
  | fuel + 1, current :: queue =>
    match getNode p current with
    | none => bfsOrder p fuel queue
    | some nd => current :: bfsOrder p fuel (queue ++ nd.children)

/-- Claim-side definition: the `ExpandAll` operators with destination
`n`, in breadth-first order from the root. -/
def bfsExpandAllDest (p : ExecutionPlan) (n : Nat) (fuel : Nat) : List Nat :=
  (bfsOrder p fuel [p.root]).filter (fun i =>
    match getNode p i with
    | some nd => isExpandAllDest nd.op n
    | none => false)

theorem locateLoop_zero (p : ExecutionPlan) (n : Nat) (stack : List Nat)
    (a : Option Nat) : locateLoop p n 0 stack a = (a, none) := rfl

theorem locateLoop_nil (p : ExecutionPlan) (n fuel : Nat) (a : Option Nat) :
    locateLoop p n (fuel + 1) [] a = (a, none) := rfl

theorem locateLoop_cons (p : ExecutionPlan) (n fuel current : Nat)
    (stack : List Nat) (a : Option Nat) :
    locateLoop p n (fuel + 1) (current :: stack) a =
      match getNode p current with
      | none => locateLoop p n fuel stack a
      | some nd =>
        if isExpandAllDest nd.op n then
          match a with
          | none => locateLoop p n fuel stack (some current)
          | some a0 => (some a0, some current)
        else locateLoop p n fuel (nd.children.reverse ++ stack) a := rfl

theorem dfsCandidates_cons (p : ExecutionPlan) (n fuel current : Nat)
    (stack : List Nat) :
    dfsCandidates p n (fuel + 1) (current :: stack) =
      match getNode p current with
      | none => dfsCandidates p n fuel stack
      | some nd =>
        if isExpandAllDest nd.op n then current :: dfsCandidates p n fuel stack
        else dfsCandidates p n fuel (nd.children.reverse ++ stack) := rfl

theorem locateLoop_eq_dfsCandidates (p : ExecutionPlan) (n : Nat) :
    ∀ (fuel : Nat) (stack : List Nat),
      (locateLoop p n fuel stack none =
        match dfsCandidates p n fuel stack with
        | [] => (none, none)
        | [x] => (some x, none)
        | x :: y :: _ => (some x, some y)) ∧
      (∀ a, locateLoop p n fuel stack (some a) =
        match dfsCandidates p n fuel stack with
        | [] => (some a, none)
        | x :: _ => (some a, some x)) := by
  intro fuel
  induction fuel with
  | zero => intro stack; exact ⟨rfl, fun a => rfl⟩
  | succ fuel ih =>
    intro stack
    cases stack with
    | nil => exact ⟨rfl, fun a => rfl⟩
    | cons current rest =>
      constructor
      · show locateLoop p n (fuel + 1) (current :: rest) none = _
        rw [locateLoop_cons, dfsCandidates_cons]
        cases hg : getNode p current with
        | none => exact (ih rest).1
        | some nd =>
          dsimp only
          by_cases hd : isExpandAllDest nd.op n
          · rw [if_pos hd, if_pos hd]
            rw [(ih rest).2 current]
            cases dfsCandidates p n fuel rest <;> rfl
          · rw [if_neg hd, if_neg hd]
            exact (ih (nd.children.reverse ++ rest)).1
      · intro a
        show locateLoop p n (fuel + 1) (current :: rest) (some a) = _
        rw [locateLoop_cons, dfsCandidates_cons]
        cases hg : getNode p current with
        | none => exact (ih rest).2 a
        | some nd =>
          dsimp only
          by_cases hd : isExpandAllDest nd.op n
          · rw [if_pos hd, if_pos hd]
          · rw [if_neg hd, if_neg hd]
            exact (ih (nd.children.reverse ++ rest)).2 a

theorem locate_first_is_candidate (p : ExecutionPlan) (n : Nat) :
    ∀ (fuel : Nat) (stack : List Nat) (a₀ : Option Nat) (a b : Nat),
    locateLoop p n fuel stack a₀ = (some a, some b) →
    a₀ = some a ∨
      ∃ nd, getNode p a = some nd ∧ isExpandAllDest nd.op n = true := by
  intro fuel
  induction fuel with
  | zero =>
    intro stack a₀ a b h
    rw [locateLoop_zero] at h
    simp only [Prod.mk.injEq] at h
    cases h.2
  | succ fuel ih =>
    intro stack a₀ a b h
    cases stack with
    | nil =>
      rw [locateLoop_nil] at h
      simp only [Prod.mk.injEq] at h
      cases h.2
    | cons current rest =>
      rw [locateLoop_cons] at h
      cases hg : getNode p current with
      | none =>
        rw [hg] at h
        exact ih rest a₀ a b h
      | some nd =>
        rw [hg] at h
        dsimp only at h
        by_cases hd : isExpandAllDest nd.op n
        · rw [if_pos hd] at h
          cases a₀ with
          | none =>
            dsimp only at h
            rcases ih rest (some current) a b h with hcase | hcase
            · right
              cases hcase
              exact ⟨nd, hg, hd⟩
            · right; exact hcase
          | some a0 =>
            dsimp only at h
            simp only [Prod.mk.injEq, Option.some.injEq] at h
            left
            rw [h.1]
        · rw [if_neg hd] at h
          exact ih (nd.children.reverse ++ rest) a₀ a b h

/-! ### The effect of one merge rewrite on the operator list. -/

theorem planOps_updateNode (p : ExecutionPlan) (i : Nat) (nd : PlanNode)
    (f : PlanNode → PlanNode) (h : getNode p i = some nd) :
    planOps (updateNode p i f) = (planOps p).set i (f nd).op := by
  unfold updateNode
  unfold getNode at h
  rw [h]
  simp [planOps, List.map_set]

theorem planOps_get? (p : ExecutionPlan) (i : Nat) (nd : PlanNode)
    (h : getNode p i = some nd) : (planOps p).get? i = some nd.op := by
  unfold getNode at h
  rw [planOps, List.get?_map, h]
  rfl

theorem mergeNodes_planOps (g : QGraph) (fuel : Nat) (p : ExecutionPlan)
    (n : Nat) :
    planOps (_ExecutionPlan_MergeNodes g fuel p n) = planOps p ∨
    (Node_IncomeDegree g n = 2 ∧ ∃ a s e,
      (planOps p).get? a = some (.expandAll s e n) ∧
      planOps (_ExecutionPlan_MergeNodes g fuel p n) =
        (planOps p).set a (.expandInto s e n)) := by
  unfold _ExecutionPlan_MergeNodes
  by_cases hdeg : Node_IncomeDegree g n ≠ 2
  · rw [if_pos hdeg]; left; rfl
  · rw [if_neg hdeg]
    push_neg at hdeg
    rcases hl : locateLoop p n fuel [p.root] none with ⟨oa, ob⟩
    cases oa with
    | none => left; rfl
    | some a =>
      cases ob with
      | none => left; rfl
      | some b =>
        dsimp only
        rcases locate_first_is_candidate p n fuel [p.root] none a b hl with
          hcand | hcand
        · cases hcand
        · rcases hcand with ⟨an, hga, hax⟩
          rw [hga]
          dsimp only
          cases hop : an.op with
          | expandAll src e dest =>
            dsimp only
            have hdest : dest = n := by
              rw [hop] at hax
              simpa [isExpandAllDest] using hax
            subst hdest
            right
            refine ⟨hdeg, a, src, e, ?_, ?_⟩
            · rw [← hop]
              exact planOps_get? p a an hga
            · rw [planOps_inheritParentsLoop, planOps_AddChild,
                planOps_updateNode p a an _ hga]
          | produceResults => rw [hop] at hax; simp [isExpandAllDest] at hax
          | aggregate => rw [hop] at hax; simp [isExpandAllDest] at hax
          | expandInto s e d => rw [hop] at hax; simp [isExpandAllDest] at hax
          | filterOp t => rw [hop] at hax; simp [isExpandAllDest] at hax
          | allNodeScan nn => rw [hop] at hax; simp [isExpandAllDest] at hax
          | nodeByLabelScan nn ll => rw [hop] at hax; simp [isExpandAllDest] at hax

/-! ### The merge loop: at most one `ExpandInto` per node, always with an
in-degree-2 destination. -/

theorem mergeNodesLoop_invariant (g : QGraph) (fuel : Nat) :
    ∀ (l : List Nat) (p : ExecutionPlan),
    l.Nodup →
    (∀ d ∈ l, countExpandIntoDest p d = 0) →
    (∀ op ∈ planOps p, ∀ s e d, op = OpType.expandInto s e d →
      Node_IncomeDegree g d = 2) →
    (∀ d, countExpandIntoDest p d ≤ 1) →
    (∀ op ∈ planOps (mergeNodesLoop g fuel p l), ∀ s e d,
      op = OpType.expandInto s e d → Node_IncomeDegree g d = 2) ∧
    (∀ d, countExpandIntoDest (mergeNodesLoop g fuel p l) d ≤ 1) := by
  intro l
  induction l with
  | nil =>
    intro p _ _ hmem hcnt
    exact ⟨hmem, hcnt⟩
  | cons nn rest ih =>
    intro p hnd hzero hmem hcnt
    show (∀ op ∈ planOps (mergeNodesLoop g fuel
        (_ExecutionPlan_MergeNodes g fuel p nn) rest), _) ∧ _
    rcases mergeNodes_planOps g fuel p nn with heq | ⟨hdeg, a, s, e, hget, hset⟩
    · apply ih
      · exact (List.nodup_cons.1 hnd).2
      · intro d hd
        show (planOps _).countP _ = 0
        rw [heq]
        exact hzero d (List.mem_cons_of_mem _ hd)
      · intro op hop
        rw [heq] at hop
        exact hmem op hop
      · intro d
        show (planOps _).countP _ ≤ 1
        rw [heq]
        exact hcnt d
    · have hcnt' : ∀ d, countExpandIntoDest (_ExecutionPlan_MergeNodes g fuel p nn) d =
          countExpandIntoDest p d + (if (nn == d) = true then 1 else 0) := by
        intro d
        show (planOps _).countP _ = _
        rw [hset]
        rw [countP_set_of_not _ (planOps p) a _ _ hget (by simp [isExpandIntoDest])]
        rfl
      apply ih
      · exact (List.nodup_cons.1 hnd).2
      · intro d hd
        rw [hcnt' d]
        have hne : nn ≠ d := by
          intro hcon
          subst hcon
          exact (List.nodup_cons.1 hnd).1 hd
        rw [if_neg (by simp [hne])]
        rw [hzero d (List.mem_cons_of_mem _ hd)]
      · intro op hop s₀ e₀ d₀ hopEq
        rw [hset] at hop
        rcases List.mem_or_eq_of_mem_set hop with hmemOld | hnew
        · exact hmem op hmemOld s₀ e₀ d₀ hopEq
        · rw [hnew] at hopEq
          cases hopEq
          exact hdeg
      · intro d
        rw [hcnt' d]
        by_cases hnd' : nn = d
        · subst hnd'
          rw [hzero nn (List.mem_cons_self _ _)]
          simp
        · rw [if_neg (by simp [hnd'])]
          simpa using hcnt d

/-- The whole-pipeline invariant: every `ExpandInto` operator in the
final plan has a destination of in-degree exactly 2, and each node is
the destination of at most one `ExpandInto`. -/
theorem NewExecutionPlanFull_into_invariant (g : QGraph)
    (hasAggregation : Bool) (whereTree : Option (List Pred)) (fuel : Nat)
    (p : ExecutionPlan)
    (h : NewExecutionPlanFull g hasAggregation whereTree fuel = some p) :
    (∀ op ∈ planOps p, ∀ s e d, op = OpType.expandInto s e d →
      Node_IncomeDegree g d = 2) ∧
    (∀ d, countExpandIntoDest p d ≤ 1) := by
  unfold NewExecutionPlanFull at h
  cases h₀ : NewExecutionPlan g hasAggregation whereTree fuel with
  | none => rw [h₀] at h; cases h
  | some p₀ =>
    rw [h₀] at h
    dsimp only at h
    cases h₁ : _ExecutionPlan_OptimizeEntryPoints g fuel p₀ p₀.root with
    | none => rw [h₁] at h; cases h
    | some p₁ =>
      rw [h₁] at h
      dsimp only at h
      have hno₀ := NewExecutionPlan_NoInto g hasAggregation whereTree fuel p₀ h₀
      rcases optimize_planOps g fuel p₀ p₀.root p₁ h₁ with ⟨s, hs, hnos⟩
      have hno₁ : NoInto (planOps p₁) := by
        rw [hs]; exact NoInto_append hno₀ hnos
      have hnodup : (Graph_GetNDegreeNodes g 2).Nodup :=
        (List.nodup_range g.nodes.length).filter _
      have hmerge := mergeNodesLoop_invariant g fuel (Graph_GetNDegreeNodes g 2)
        p₁ hnodup
        (fun d _ => countInto_eq_zero_of_NoInto hno₁ d)
        (fun op hop s₀ e₀ d₀ hopEq => absurd hopEq (hno₁ op hop s₀ e₀ d₀))
        (fun d => by
          rw [show countExpandIntoDest p₁ d = 0 from
            countInto_eq_zero_of_NoInto hno₁ d]
          exact Nat.zero_le 1)
      cases whereTree with
      | none =>
        simp only [Option.some.injEq] at h
        subst h
        exact hmerge
      | some wt =>
        dsimp only at h
        cases h₂ : _ExecutionPlan_AddFilters g fuel
            (mergeNodesLoop g fuel p₁ (Graph_GetNDegreeNodes g 2))
            (mergeNodesLoop g fuel p₁ (Graph_GetNDegreeNodes g 2)).filter_tree
            (mergeNodesLoop g fuel p₁ (Graph_GetNDegreeNodes g 2)).root with
        | none => rw [h₂] at h; cases h
        | some r =>
          rcases r with ⟨p₃, ft₃, saw₃⟩
          rw [h₂] at h
          simp only [Option.some.injEq] at h
          subst h
          rcases addFilters_planOps g fuel _ _ _ _ h₂ with ⟨s₂, hs₂, hnos₂⟩
          have hops : planOps { p₃ with filter_tree := ft₃ } = planOps p₃ := rfl
          constructor
          · intro op hop s₀ e₀ d₀ hopEq
            rw [hops, hs₂] at hop
            rcases List.mem_append.1 hop with hm | hm
            · exact hmerge.1 op hm s₀ e₀ d₀ hopEq
            · exact absurd hopEq (hnos₂ op hm s₀ e₀ d₀)
          · intro d
            show (planOps _).countP _ ≤ 1
            rw [hops, hs₂, List.countP_append,
              countInto_eq_zero_of_NoInto hnos₂ d]
            simpa using hmerge.2 d

/-! ### `_OpNode_PushInBetween`: the inserted node adopts the parent's
children and becomes its only child. -/

theorem get?_set_self {α : Type _} :
    ∀ (l : List α) (i : Nat) (x y : α), l.get? i = some y →
    (l.set i x).get? i = some x
  | [], _, _, _, h => by cases h
  | a :: as, 0, x, y, h => rfl
  | a :: as, i + 1, x, y, h => by
    simp only [List.get?] at h
    simpa [List.set] using get?_set_self as i x y h

theorem get?_set_other {α : Type _} :
    ∀ (l : List α) (i j : Nat) (x : α), i ≠ j →
    (l.set i x).get? j = l.get? j
  | [], _, _, _, _ => rfl
  | a :: as, 0, 0, x, h => absurd rfl h
  | a :: as, 0, j + 1, x, h => rfl
  | a :: as, i + 1, 0, x, h => rfl
  | a :: as, i + 1, j + 1, x, h => by
    simpa [List.set] using get?_set_other as i j x (by omega)

theorem getNode_updateNode_other (p : ExecutionPlan) (i j : Nat)
    (f : PlanNode → PlanNode) (h : i ≠ j) :
    getNode (updateNode p i f) j = getNode p j := by
  unfold updateNode getNode
  cases hg : p.nodes.get? i with
  | none => rfl
  | some nd => exact get?_set_other p.nodes i j (f nd) h

theorem getNode_updateNode_self (p : ExecutionPlan) (i : Nat)
    (nd : PlanNode) (f : PlanNode → PlanNode) (h : getNode p i = some nd) :
    getNode (updateNode p i f) i = some (f nd) := by
  unfold getNode at h
  unfold updateNode getNode
  rw [h]
  exact get?_set_self p.nodes i (f nd) nd h

theorem pushInBetweenLoop_spec (parent f : Nat) (hne : parent ≠ f) :
    ∀ (cl : List Nat) (p : ExecutionPlan) (pn fn : PlanNode),
    getNode p parent = some pn → pn.children = cl →
    getNode p f = some fn →
    parent ∉ cl → f ∉ cl →
    (getNode (pushInBetweenLoop cl.length p parent f) parent =
      some { pn with children := [] }) ∧
    (getNode (pushInBetweenLoop cl.length p parent f) f =
      some { fn with children := fn.children ++ cl }) := by
  intro cl
  induction cl with
  | nil =>
    intro p pn fn hp hch hf _ _
    obtain ⟨opn, chn, parn⟩ := pn
    simp only at hch
    subst hch
    refine ⟨hp, ?_⟩
    show getNode p f = _
    rw [hf]
    simp
  | cons c cl' ih =>
    intro p pn fn hp hch hf hparmem hfmem
    have hparc : parent ≠ c := fun hcon => hparmem (hcon ▸ List.mem_cons_self c cl')
    have hfc : f ≠ c := fun hcon => hfmem (hcon ▸ List.mem_cons_self c cl')
    have hstep : pushInBetweenLoop (c :: cl').length p parent f =
        pushInBetweenLoop cl'.length
          (_OpNode_RemoveChild (_OpNode_AddChild p f c) parent c) parent f := by
      show pushInBetweenLoop (cl'.length + 1) p parent f = _
      conv_lhs => unfold pushInBetweenLoop
      rw [hp]
      dsimp only
      rw [hch]
    have hq : getNode (_OpNode_AddChild p f c) parent = some pn := by
      unfold _OpNode_AddChild
      rw [getNode_updateNode_other _ c parent _ (Ne.symm hparc),
        getNode_updateNode_other _ f parent _ (Ne.symm hne)]
      exact hp
    have hqf : getNode (_OpNode_AddChild p f c) f =
        some { fn with children := fn.children ++ [c] } := by
      unfold _OpNode_AddChild
      rw [getNode_updateNode_other _ c f _ (Ne.symm hfc)]
      exact getNode_updateNode_self p f fn _ hf
    have hp₂ : getNode (_OpNode_RemoveChild (_OpNode_AddChild p f c) parent c)
        parent = some { pn with children := cl' } := by
      unfold _OpNode_RemoveChild _OpNode_RemoveNode
      rw [getNode_updateNode_other _ c parent _ (Ne.symm hparc),
        getNode_updateNode_self _ parent pn _ hq]
      simp [hch]
    have hp₂f : getNode (_OpNode_RemoveChild (_OpNode_AddChild p f c) parent c)
        f = some { fn with children := fn.children ++ [c] } := by
      unfold _OpNode_RemoveChild _OpNode_RemoveNode
      rw [getNode_updateNode_other _ c f _ (Ne.symm hfc),
        getNode_updateNode_other _ parent f _ hne]
      exact hqf
    obtain ⟨ih1, ih2⟩ := ih
      (_OpNode_RemoveChild (_OpNode_AddChild p f c) parent c)
      { pn with children := cl' } { fn with children := fn.children ++ [c] }
      hp₂ rfl hp₂f
      (fun hm => hparmem (List.mem_cons_of_mem _ hm))
      (fun hm => hfmem (List.mem_cons_of_mem _ hm))
    rw [hstep]
    exact ⟨by simpa using ih1, by simpa using ih2⟩

/-- The top-level `_OpNode_PushInBetween`: afterwards the parent's only
child is `onlyChild`, and `onlyChild` has adopted every child the parent
used to have. -/
theorem pushInBetween_spec (p : ExecutionPlan) (parent f : Nat)
    (pn fn : PlanNode)
    (hp : getNode p parent = some pn) (hf : getNode p f = some fn)
    (hne : parent ≠ f) (hparmem : parent ∉ pn.children)
    (hfmem : f ∉ pn.children) :
    (getNode (_OpNode_PushInBetween p parent f) parent).map (·.children) =
      some [f] ∧
    (getNode (_OpNode_PushInBetween p parent f) f).map (·.children) =
      some (fn.children ++ pn.children) := by
  obtain ⟨hloop1, hloop2⟩ := pushInBetweenLoop_spec parent f hne pn.children p
    pn fn hp rfl hf hparmem hfmem
  unfold _OpNode_PushInBetween
  rw [hp]
  dsimp only
  have haddp : getNode (_OpNode_AddChild
      (pushInBetweenLoop pn.children.length p parent f) parent f) parent =
      some { pn with children := [f] } := by
    unfold _OpNode_AddChild
    rw [getNode_updateNode_other _ f parent _ (Ne.symm hne),
      getNode_updateNode_self _ parent _ _ hloop1]
    rfl
  have haddf : getNode (_OpNode_AddChild
      (pushInBetweenLoop pn.children.length p parent f) parent f) f =
      some ⟨fn.op, fn.children ++ pn.children, fn.parents ++ [parent]⟩ := by
    unfold _OpNode_AddChild
    rw [getNode_updateNode_self _ f _ _ (by
      rw [getNode_updateNode_other _ parent f _ hne]
      exact hloop2)]
  rw [haddp, haddf]
  exact ⟨rfl, rfl⟩

/-! ### Concrete pattern graphs and plans for the claims' scenarios. -/

/-- Pattern graph for `MATCH (a)-[:R]->(b)`: node 0 is `a` (unlabeled,
one outgoing edge), node 1 is `b`. -/
def gFilterScenario : QGraph := ⟨[⟨"a", none, [0]⟩, ⟨"b", none, []⟩], [⟨0, 1⟩]⟩

/-- The `WHERE a.age > 30` filter tree: one predicate over alias `a`. -/
def ftAge : List Pred := [⟨["a"]⟩]

/-- The plan the pipeline builds for
`MATCH (a)-[:R]->(b) WHERE a.age > 30 RETURN b`:
`ProduceResults ← ExpandAll(a,R,b) ← Filter(a.age>30) ← AllNodeScan(a)`. -/
def planFilterScenario : ExecutionPlan :=
  ⟨[⟨.produceResults, [1], []⟩,
    ⟨.expandAll 0 0 1, [3], [0]⟩,
    ⟨.allNodeScan 0, [], [3]⟩,
    ⟨.filterOp [⟨["a"]⟩], [2], [1]⟩], 0, []⟩

/-- Pattern graph with nodes u, w, n, v and edges u→w (u's first
outgoing edge), u→n (u's second), v→n: node `n` (index 2) has in-degree
2, but the edge u→n lies on no builder chain (the chain walk follows
only the first outgoing edge of each node). -/
def gSecondEdge : QGraph :=
  ⟨[⟨"u", none, [0, 1]⟩, ⟨"w", none, []⟩, ⟨"n", none, []⟩, ⟨"v", none, [2]⟩],
   [⟨0, 1⟩, ⟨0, 2⟩, ⟨3, 2⟩]⟩

/-- The diamond pattern u→n←v: node `n` (index 2) has in-degree 2 and
both incoming edges lie on builder chains. -/
def gDiamond : QGraph :=
  ⟨[⟨"u", none, [0]⟩, ⟨"v", none, [1]⟩, ⟨"n", none, []⟩], [⟨0, 2⟩, ⟨1, 2⟩]⟩

/-- The plan the pipeline builds for the diamond pattern: the expansion
from `v` has been rewritten into an `ExpandInto` that sits above the
remaining `ExpandAll`. -/
def planDiamond : ExecutionPlan :=
  ⟨[⟨.produceResults, [2], []⟩,
    ⟨.expandAll 0 0 2, [3], [2]⟩,
    ⟨.expandInto 1 1 2, [4, 1], [0]⟩,
    ⟨.allNodeScan 0, [], [1]⟩,
    ⟨.allNodeScan 1, [], [2]⟩], 0, []⟩

/-- A pattern graph in which node 5 has in-degree 2. -/
def gTwoIn : QGraph :=
  ⟨[⟨"x0", none, []⟩, ⟨"x1", none, []⟩, ⟨"x2", none, []⟩,
    ⟨"x3", none, [0]⟩, ⟨"x4", none, [1]⟩, ⟨"x5", none, []⟩],
   [⟨3, 5⟩, ⟨4, 5⟩]⟩

/-- A plan whose root has two `ExpandAll` children (nodes 1 and 2, in
that order) with the same destination, pattern node 5. -/
def planTwoExpand : ExecutionPlan :=
  ⟨[⟨.produceResults, [1, 2], []⟩,
    ⟨.expandAll 3 0 5, [], [0]⟩,
    ⟨.expandAll 4 1 5, [], [0]⟩], 0, []⟩

/-! ### Claim theorems about the planner. -/

/-- C3 counterexample: the claim states that the two `ExpandAll`
operators are located by a breadth-first traversal, `a` being the first
and `b` the second in breadth-first order.  On `planTwoExpand`, whose
root has the candidate operators as children 1 and 2 in that order, the
breadth-first order of the candidates is `[1, 2]`, yet the worklist
search returns `a = 2, b = 1` (the worklist vector pops the last pushed
element, so the traversal is depth-first and visits the children
right-to-left), and the merge rewrite turns node 2 — not node 1, the
first in breadth-first order — into the `ExpandInto`. -/
theorem MergeNodes_locate_bfs_counterexample :
    Node_IncomeDegree gTwoIn 5 = 2 ∧
    bfsExpandAllDest planTwoExpand 5 10 = [1, 2] ∧
    locateLoop planTwoExpand 5 10 [planTwoExpand.root] none = (some 2, some 1) ∧
    ((some 2, some 1) : Option Nat × Option Nat) ≠ (some 1, some 2) ∧
    (getNode (_ExecutionPlan_MergeNodes gTwoIn 10 planTwoExpand 5) 2).map (·.op) =
      some (.expandInto 4 1 5) ∧
    (getNode (_ExecutionPlan_MergeNodes gTwoIn 10 planTwoExpand 5) 1).map (·.op) =
      some (.expandAll 3 0 5) := by decide

/-- C3 (amended): the two `ExpandAll` operators whose destination is `n`
are located by a stack-based depth-first traversal of the plan from the
root, children pushed in order and therefore visited rightmost-first,
which does not descend below located candidates; `a` is the first
candidate so encountered and `b` the second (`dfsCandidates` enumerates
the candidates in exactly that traversal order). -/
theorem MergeNodes_locate_depthfirst (p : ExecutionPlan) (n : Nat)
    (fuel : Nat) :
    locateLoop p n fuel [p.root] none =
      match dfsCandidates p n fuel [p.root] with
      | [] => (none, none)
      | [x] => (some x, none)
      | x :: y :: _ => (some x, some y) :=
  (locateLoop_eq_dfsCandidates p n fuel [p.root]).1

/-- C4 counterexample: the claim states that every pattern node with
in-degree exactly 2 has exactly two `ExpandAll` operators with it as
destination before the merge rewrite, and exactly one `ExpandInto`
afterwards.  In `gSecondEdge` the pattern node `n` (index 2) has
in-degree 2, but the builder chains emit only one `ExpandAll` with
destination `n` (the edge u→n is u's second outgoing edge, and the chain
walk follows only first outgoing edges), so the merge finds no second
candidate and the final plan contains no `ExpandInto` at all. -/
theorem ExpandInto_counts_counterexample :
    Node_IncomeDegree gSecondEdge 2 = 2 ∧
    ((NewExecutionPlan gSecondEdge false none 50).bind
      (fun p => _ExecutionPlan_OptimizeEntryPoints gSecondEdge 50 p p.root)).map
      (fun p => countExpandAllDest p 2) = some 1 ∧
    (NewExecutionPlanFull gSecondEdge false none 50).map
      (fun p => countExpandIntoDest p 2) = some 0 := by decide

/-- C4 (amended): a pattern node with in-degree exactly 2 has one
pre-merge `ExpandAll` per builder-chain traversal of an incoming edge,
which need not be two; in every plan built by the pipeline, each
`ExpandInto` operator's destination is a pattern node of in-degree
exactly 2 and every node is the destination of at most one `ExpandInto`;
when the two incoming edges do lie on builder chains (the diamond
pattern), the node has exactly two pre-merge `ExpandAll` operators and
exactly one `ExpandInto` after the rewrite. -/
theorem ExpandInto_per_merge_node_amended :
    (∀ (g : QGraph) (hasAggregation : Bool) (whereTree : Option (List Pred))
      (fuel : Nat) (p : ExecutionPlan),
      NewExecutionPlanFull g hasAggregation whereTree fuel = some p →
      (∀ op ∈ planOps p, ∀ s e d, op = OpType.expandInto s e d →
        Node_IncomeDegree g d = 2) ∧
      (∀ d, countExpandIntoDest p d ≤ 1)) ∧
    (Node_IncomeDegree gDiamond 2 = 2 ∧
     ((NewExecutionPlan gDiamond false none 50).bind
       (fun p => _ExecutionPlan_OptimizeEntryPoints gDiamond 50 p p.root)).map
       (fun p => countExpandAllDest p 2) = some 2 ∧
     NewExecutionPlanFull gDiamond false none 50 = some planDiamond ∧
     countExpandIntoDest planDiamond 2 = 1) :=
  ⟨fun g hA wt fuel p h => NewExecutionPlanFull_into_invariant g hA wt fuel p h,
   by decide⟩

theorem ExpandInto_per_merge_node_amended_witness :
    NewExecutionPlanFull gDiamond false none 50 = some planDiamond ∧
    countExpandIntoDest planDiamond 2 ≤ 1 := by
  refine ⟨by decide, ?_⟩
  exact (ExpandInto_per_merge_node_amended.1 gDiamond false none 50 planDiamond
    (by decide)).2 2

/-- C5: when the filter pushdown inserts a new `Filter` operator at the
current operator (`_OpNode_PushInBetween`), the `Filter` adopts every
child the operator used to have and the operator's only child becomes
the `Filter` — so the filter lands between the operator and the
operators that bind the filtered aliases; in particular, for
`MATCH (a)-[:R]->(b) WHERE a.age > 30 RETURN b`, the pipeline's plan is
`ProduceResults ← ExpandAll(a,R,b) ← Filter(a.age>30) ← AllNodeScan(a)`:
the `Filter` sits between the scan of `a` and the expansion to `b`,
never above the expansion. -/
theorem Filter_insertion_pushInBetween (p : ExecutionPlan) (op f : Nat)
    (pn fn : PlanNode)
    (hp : getNode p op = some pn) (hf : getNode p f = some fn)
    (hne : op ≠ f) (hparmem : op ∉ pn.children) (hfmem : f ∉ pn.children) :
    ((getNode (_OpNode_PushInBetween p op f) op).map (·.children) =
        some [f] ∧
      (getNode (_OpNode_PushInBetween p op f) f).map (·.children) =
        some (fn.children ++ pn.children)) ∧
    NewExecutionPlanFull gFilterScenario false (some ftAge) 50 =
      some planFilterScenario :=
  ⟨pushInBetween_spec p op f pn fn hp hf hne hparmem hfmem, by decide⟩

/-- A small plan used to instantiate the `_OpNode_PushInBetween`
characterization: the root (a `ProduceResults` with one scan child) and
a fresh childless filter node. -/
def planPushEx : ExecutionPlan :=
  ⟨[⟨.produceResults, [1], []⟩, ⟨.allNodeScan 0, [], [0]⟩,
    ⟨.filterOp [], [], []⟩], 0, []⟩

theorem Filter_insertion_pushInBetween_witness :
    (getNode (_OpNode_PushInBetween planPushEx 0 2) 0).map (·.children) =
      some [2] ∧
    (getNode (_OpNode_PushInBetween planPushEx 0 2) 2).map (·.children) =
      some [1] := by
  have h := (Filter_insertion_pushInBetween planPushEx 0 2
    ⟨.produceResults, [1], []⟩ ⟨.filterOp [], [], []⟩ rfl rfl
    (by decide) (by decide) (by decide)).1
  exact ⟨h.1, by simpa using h.2⟩

/-! ## Tree model of the recursive optimizer walks.

Both `_ExecutionPlan_OptimizeEntryPoints` and `_ExecutionPlan_AddFilters`
recurse through the `children` arrays with no visited set: they treat
the plan as a tree.  For the structural theorems about these walks the
plan is modelled as an inductive tree of operator nodes; the `id` field
models the node's address. -/

inductive PTree where
  | node (id : Nat) (op : OpType) (children : List PTree)

def PTree.id : PTree → Nat
  | .node i _ _ => i

def PTree.op : PTree → OpType
  | .node _ op _ => op

def PTree.children : PTree → List PTree
  | .node _ _ ch => ch

/-! The node ids of a tree, in pre-order. -/
mutual

def idsOfT : PTree → List Nat
  | .node i _ ch => i :: idsOfTList ch

def idsOfTList : List PTree → List Nat
  | [] => []
  | t :: ts => idsOfT t ++ idsOfTList ts

end

/-! Look a node up by its id (pre-order first match). -/
mutual

def findByIdT : PTree → Nat → Option PTree
  | .node i op ch, j =>
    if i = j then some (.node i op ch) else findByIdTList ch j

def findByIdTList : List PTree → Nat → Option PTree
  | [], _ => none
  | t :: ts, j =>
    match findByIdT t j with
    | some r => some r
    | none => findByIdTList ts j

end

/-! The aliases bound by the operators of a subtree (the cumulative
`modifies`). -/
mutual

def subtreeModifiesT (g : QGraph) : PTree → List String
  | .node _ op ch => subtreeModifiesTList g ch ++ op.modifies g

def subtreeModifiesTList (g : QGraph) : List PTree → List String
  | [] => []
  | t :: ts => subtreeModifiesT g t ++ subtreeModifiesTList g ts

end

/-! ### `_ExecutionPlan_OptimizeEntryPoints` on trees. -/

/-- The scan operator chosen for an entry point (lines 219-226):
`NodeByLabelScan` when the node has a label, `AllNodeScan` otherwise. -/
def scanOpFor (g : QGraph) (src : Nat) : OpType :=
  match labelOfNode g src with
  | some l => OpType.nodeByLabelScan src l
  | none => OpType.allNodeScan src

mutual

/-- The recursive scan-attachment walk on the tree model (lines
203-236): a childless `ExpandAll` gains exactly one scan child of its
source node; every other node recurses into its children. -/
def optimizeEntryPointsT (g : QGraph) : PTree → PTree
  | .node i op ch =>
    match ch, op with
    | [], .expandAll src e d =>
      .node i (.expandAll src e d) [.node 0 (scanOpFor g src) []]
    | ch, op => .node i op (optimizeEntryPointsTList g ch)

def optimizeEntryPointsTList (g : QGraph) : List PTree → List PTree
  | [] => []
  | t :: ts => optimizeEntryPointsT g t :: optimizeEntryPointsTList g ts

end

/-- Positions in a tree: a path of child indices. -/
def getPath : PTree → List Nat → Option PTree
  | t, [] => some t
  | .node _ _ ch, i :: rest =>
    match ch.get? i with
    | none => none
    | some c => getPath c rest

theorem optimizeEntryPointsTList_get? (g : QGraph) :
    ∀ (l : List PTree) (i : Nat),
    (optimizeEntryPointsTList g l).get? i =
      (l.get? i).map (optimizeEntryPointsT g)
  | [], _ => rfl
  | t :: ts, 0 => rfl
  | t :: ts, i + 1 => by
    simpa [optimizeEntryPointsTList] using optimizeEntryPointsTList_get? g ts i


theorem optimizeEntryPointsT_scan_at_path (g : QGraph) :
    ∀ (path : List Nat) (t : PTree) (j src e d : Nat),
    getPath t path = some (.node j (.expandAll src e d) []) →
    getPath (optimizeEntryPointsT g t) path =
      some (.node j (.expandAll src e d) [.node 0 (scanOpFor g src) []]) := by
  intro path
  induction path with
  | nil =>
    intro t j src e d h
    simp only [getPath, Option.some.injEq] at h
    subst h
    rfl
  | cons i rest ih =>
    intro t j src e d h
    obtain ⟨tid, top, tch⟩ := t
    simp only [getPath] at h
    cases hc : tch.get? i with
    | none => rw [hc] at h; cases h
    | some c =>
      rw [hc] at h
      cases tch with
      | nil => cases hc
      | cons c₀ cs =>
        have hred : optimizeEntryPointsT g (.node tid top (c₀ :: cs)) =
            .node tid top (optimizeEntryPointsTList g (c₀ :: cs)) := by
          cases top <;> rfl
        rw [hred]
        simp only [getPath]
        rw [optimizeEntryPointsTList_get?, hc]
        exact ih c j src e d h

/-! ### `_ExecutionPlan_AddFilters` on trees.

`addFiltersT` returns the rewritten tree, the residual filter tree, the
`saw` alias vector (`none` models the C `NULL` return taken when the
filter tree becomes empty mid-walk), and — as instrumentation — the list
of `(node id, seen)` pairs for every `FilterTree_ContainsNode`
consultation performed, in consultation order.  The children are
processed in reverse index order, exactly like the
`for(i = childCount-1; i >= 0; i--)` loop, by recursing on the right
part of the list first. -/

mutual

def addFiltersT (g : QGraph) : PTree → List Pred →
    PTree × List Pred × Option (List String) × List (Nat × List String)
  | .node i op ch, ft =>
    match addFiltersTChildren g ch ft with
    | (ch', ft₁, none, checks) => (.node i op ch', ft₁, none, checks)
    | (ch', ft₁, some seen, checks) =>
      if FilterTree_ContainsNode ft₁ seen then
        (.node i op
            [.node 0 (.filterOp (FilterTree_MinFilterTree ft₁ seen)) ch'],
          FilterTree_RemovePredNodes ft₁ seen,
          some (seen ++ op.modifies g), checks ++ [(i, seen)])
      else
        (.node i op ch', ft₁, some (seen ++ op.modifies g),
          checks ++ [(i, seen)])

def addFiltersTChildren (g : QGraph) : List PTree → List Pred →
    List PTree × List Pred × Option (List String) × List (Nat × List String)
  | [], ft => ([], ft, some [], [])
  | c :: cs, ft =>
    match addFiltersTChildren g cs ft with
    | (cs', ft₁, none, checks₂) => (c :: cs', ft₁, none, checks₂)
    | (cs', ft₁, some seenRest, checks₂) =>
      match addFiltersT g c ft₁ with
      | (c', ft₂, saw, checks₁) =>
        if ft₂.isEmpty then (c' :: cs', ft₂, none, checks₂ ++ checks₁)
        else (c' :: cs', ft₂, some (seenRest ++ saw.getD []),
          checks₂ ++ checks₁)

end

theorem addFiltersT_node (g : QGraph) (i : Nat) (op : OpType)
    (ch : List PTree) (ft : List Pred) :
    addFiltersT g (.node i op ch) ft =
      match addFiltersTChildren g ch ft with
      | (ch', ft₁, none, checks) => (.node i op ch', ft₁, none, checks)
      | (ch', ft₁, some seen, checks) =>
        if FilterTree_ContainsNode ft₁ seen then
          (.node i op
              [.node 0 (.filterOp (FilterTree_MinFilterTree ft₁ seen)) ch'],
            FilterTree_RemovePredNodes ft₁ seen,
            some (seen ++ op.modifies g), checks ++ [(i, seen)])
        else
          (.node i op ch', ft₁, some (seen ++ op.modifies g),
            checks ++ [(i, seen)]) := rfl

theorem addFiltersTChildren_nil (g : QGraph) (ft : List Pred) :
    addFiltersTChildren g [] ft = ([], ft, some [], []) := rfl

theorem addFiltersTChildren_cons (g : QGraph) (c : PTree) (cs : List PTree)
    (ft : List Pred) :
    addFiltersTChildren g (c :: cs) ft =
      match addFiltersTChildren g cs ft with
      | (cs', ft₁, none, checks₂) => (c :: cs', ft₁, none, checks₂)
      | (cs', ft₁, some seenRest, checks₂) =>
        match addFiltersT g c ft₁ with
        | (c', ft₂, saw, checks₁) =>
          if ft₂.isEmpty then (c' :: cs', ft₂, none, checks₂ ++ checks₁)
          else (c' :: cs', ft₂, some (seenRest ++ saw.getD []),
            checks₂ ++ checks₁) := rfl

/-! When the walk returns a `NULL` saw vector, the filter tree has become
empty. -/
mutual

theorem addFiltersT_none_ft (g : QGraph) :
    ∀ (t : PTree) (ft : List Pred),
    (addFiltersT g t ft).2.2.1 = none → (addFiltersT g t ft).2.1 = []
  | .node i op ch, ft => by
    intro h
    rw [addFiltersT_node] at h ⊢
    rcases hc : addFiltersTChildren g ch ft with ⟨ch', ft₁, saw, checks⟩
    rw [hc] at h
    cases saw with
    | none =>
      dsimp only at h ⊢
      have hnone := addFiltersTChildren_none_ft g ch ft (by rw [hc])
      rw [hc] at hnone
      exact hnone
    | some seen =>
      dsimp only at h
      by_cases hcont : FilterTree_ContainsNode ft₁ seen
      · rw [if_pos hcont] at h; cases h
      · rw [if_neg hcont] at h; cases h

theorem addFiltersTChildren_none_ft (g : QGraph) :
    ∀ (l : List PTree) (ft : List Pred),
    (addFiltersTChildren g l ft).2.2.1 = none →
    (addFiltersTChildren g l ft).2.1 = []
  | [], ft => by
    intro h
    rw [addFiltersTChildren_nil] at h
    cases h
  | c :: cs, ft => by
    intro h
    rw [addFiltersTChildren_cons] at h ⊢
    rcases hrec : addFiltersTChildren g cs ft with ⟨cs', ft₁, saw₂, checks₂⟩
    rw [hrec] at h
    cases saw₂ with
    | none =>
      dsimp only at h ⊢
      have hnone := addFiltersTChildren_none_ft g cs ft (by rw [hrec])
      rw [hrec] at hnone
      exact hnone
    | some seenRest =>
      dsimp only at h ⊢
      rcases hcres : addFiltersT g c ft₁ with ⟨c', ft₂, saw₁, checks₁⟩
      rw [hcres] at h
      dsimp only at h ⊢
      by_cases hemp : ft₂.isEmpty
      · rw [if_pos hemp] at h ⊢
        exact List.isEmpty_iff.1 hemp
      · rw [if_neg hemp] at h
        cases h

end

/-! The `saw` vector returned by the walk holds exactly the aliases
bound in the walked subtree. -/
mutual

theorem addFiltersT_saw (g : QGraph) :
    ∀ (t : PTree) (ft : List Pred) (l : List String),
    (addFiltersT g t ft).2.2.1 = some l →
    ∀ x, x ∈ l ↔ x ∈ subtreeModifiesT g t
  | .node i op ch, ft, l => by
    intro h x
    rw [addFiltersT_node] at h
    rcases hc : addFiltersTChildren g ch ft with ⟨ch', ft₁, saw, checks⟩
    rw [hc] at h
    cases saw with
    | none => cases h
    | some seen =>
      dsimp only at h
      have hseen : ∀ y, y ∈ seen ↔ y ∈ subtreeModifiesTList g ch :=
        addFiltersTChildren_saw g ch ft seen (by rw [hc])
      by_cases hcont : FilterTree_ContainsNode ft₁ seen
      · rw [if_pos hcont] at h
        simp only [Option.some.injEq] at h
        subst h
        simp [subtreeModifiesT, hseen x]
      · rw [if_neg hcont] at h
        simp only [Option.some.injEq] at h
        subst h
        simp [subtreeModifiesT, hseen x]

theorem addFiltersTChildren_saw (g : QGraph) :
    ∀ (cs : List PTree) (ft : List Pred) (l : List String),
    (addFiltersTChildren g cs ft).2.2.1 = some l →
    ∀ x, x ∈ l ↔ x ∈ subtreeModifiesTList g cs
  | [], ft, l => by
    intro h x
    rw [addFiltersTChildren_nil] at h
    simp only [Option.some.injEq] at h
    subst h
    simp [subtreeModifiesTList]
  | c :: cs, ft, l => by
    intro h x
    rw [addFiltersTChildren_cons] at h
    rcases hrec : addFiltersTChildren g cs ft with ⟨cs', ft₁, saw₂, checks₂⟩
    rw [hrec] at h
    cases saw₂ with
    | none => cases h
    | some seenRest =>
      dsimp only at h
      rcases hcres : addFiltersT g c ft₁ with ⟨c', ft₂, saw₁, checks₁⟩
      rw [hcres] at h
      dsimp only at h
      by_cases hemp : ft₂.isEmpty
      · rw [if_pos hemp] at h; cases h
      · rw [if_neg hemp] at h
        simp only [Option.some.injEq] at h
        subst h
        have hrest : ∀ y, y ∈ seenRest ↔ y ∈ subtreeModifiesTList g cs :=
          addFiltersTChildren_saw g cs ft seenRest (by rw [hrec])
        cases saw₁ with
        | none =>
          exfalso
          have := addFiltersT_none_ft g c ft₁ (by rw [hcres])
          rw [hcres] at this
          dsimp only at this
          rw [this] at hemp
          exact hemp rfl
        | some sl =>
          have hsl : ∀ y, y ∈ sl ↔ y ∈ subtreeModifiesT g c :=
            addFiltersT_saw g c ft₁ sl (by rw [hcres])
          simp only [Option.getD, List.mem_append, subtreeModifiesTList]
          rw [hrest x, hsl x]
          exact or_comm

end

/-! Every recorded consultation concerns a node of the walked tree. -/
mutual

theorem addFiltersT_checks_ids (g : QGraph) :
    ∀ (t : PTree) (ft : List Pred) (i : Nat) (seen : List String),
    (i, seen) ∈ (addFiltersT g t ft).2.2.2 → i ∈ idsOfT t
  | .node i₀ op ch, ft, i, seen => by
    intro h
    rw [addFiltersT_node] at h
    rcases hc : addFiltersTChildren g ch ft with ⟨ch', ft₁, saw, checks⟩
    rw [hc] at h
    cases saw with
    | none =>
      dsimp only at h
      exact List.mem_cons_of_mem _
        (addFiltersTChildren_checks_ids g ch ft i seen (by rw [hc]; exact h))
    | some seen₀ =>
      dsimp only at h
      have hsplit : (i, seen) ∈ checks ++ [(i₀, seen₀)] → i ∈ idsOfT (.node i₀ op ch) := by
        intro hm
        rcases List.mem_append.1 hm with hm | hm
        · exact List.mem_cons_of_mem _
            (addFiltersTChildren_checks_ids g ch ft i seen (by rw [hc]; exact hm))
        · rcases List.mem_singleton.1 hm with hm
          simp only [Prod.mk.injEq] at hm
          rw [hm.1]
          exact List.mem_cons_self _ _
      by_cases hcont : FilterTree_ContainsNode ft₁ seen₀
      · rw [if_pos hcont] at h
        exact hsplit h
      · rw [if_neg hcont] at h
        exact hsplit h

theorem addFiltersTChildren_checks_ids (g : QGraph) :
    ∀ (cs : List PTree) (ft : List Pred) (i : Nat) (seen : List String),
    (i, seen) ∈ (addFiltersTChildren g cs ft).2.2.2 → i ∈ idsOfTList cs
  | [], ft, i, seen => by
    intro h
    rw [addFiltersTChildren_nil] at h
    cases h
  | c :: cs, ft, i, seen => by
    intro h
    rw [addFiltersTChildren_cons] at h
    rcases hrec : addFiltersTChildren g cs ft with ⟨cs', ft₁, saw₂, checks₂⟩
    rw [hrec] at h
    cases saw₂ with
    | none =>
      dsimp only at h
      show i ∈ idsOfT c ++ idsOfTList cs
      exact List.mem_append.2 (Or.inr
        (addFiltersTChildren_checks_ids g cs ft i seen (by rw [hrec]; exact h)))
    | some seenRest =>
      dsimp only at h
      rcases hcres : addFiltersT g c ft₁ with ⟨c', ft₂, saw₁, checks₁⟩
      rw [hcres] at h
      dsimp only at h
      have hsplit : (i, seen) ∈ checks₂ ++ checks₁ → i ∈ idsOfTList (c :: cs) := by
        intro hm
        show i ∈ idsOfT c ++ idsOfTList cs
        rcases List.mem_append.1 hm with hm | hm
        · exact List.mem_append.2 (Or.inr
            (addFiltersTChildren_checks_ids g cs ft i seen (by rw [hrec]; exact hm)))
        · exact List.mem_append.2 (Or.inl
            (addFiltersT_checks_ids g c ft₁ i seen (by rw [hcres]; exact hm)))
      by_cases hemp : ft₂.isEmpty
      · rw [if_pos hemp] at h
        exact hsplit h
      · rw [if_neg hemp] at h
        exact hsplit h

end

/-! Id lookup fails outside a tree's id set. -/
mutual

theorem findByIdT_eq_none :
    ∀ (t : PTree) (j : Nat), j ∉ idsOfT t → findByIdT t j = none
  | .node i op ch, j => by
    intro h
    show (if i = j then _ else _) = _
    rw [if_neg (fun hij => h (by rw [← hij]; exact List.mem_cons_self _ _)),
      findByIdTList_eq_none ch j (fun hm => h (List.mem_cons_of_mem _ hm))]

theorem findByIdTList_eq_none :
    ∀ (l : List PTree) (j : Nat), j ∉ idsOfTList l → findByIdTList l j = none
  | [], _ => by intro _; rfl
  | t :: ts, j => by
    intro h
    show (match findByIdT t j with
      | some r => some r
      | none => findByIdTList ts j) = none
    rw [findByIdT_eq_none t j (fun hm => h (List.mem_append.2 (Or.inl hm)))]
    exact findByIdTList_eq_none ts j (fun hm => h (List.mem_append.2 (Or.inr hm)))

end

/-! The consulted `seen` set is exactly the node's proper-descendant
`modifies`. -/
mutual

theorem addFiltersT_checks_spec (g : QGraph) :
    ∀ (t : PTree) (ft : List Pred), (idsOfT t).Nodup →
    ∀ (i : Nat) (seen : List String),
    (i, seen) ∈ (addFiltersT g t ft).2.2.2 →
    ∃ s, findByIdT t i = some s ∧
      ∀ x, x ∈ seen ↔ x ∈ subtreeModifiesTList g s.children
  | .node i₀ op ch, ft => by
    intro hnd i seen h
    have hnd' : (idsOfTList ch).Nodup := (List.nodup_cons.1 hnd).2
    have hi₀ : i₀ ∉ idsOfTList ch := (List.nodup_cons.1 hnd).1
    rw [addFiltersT_node] at h
    rcases hc : addFiltersTChildren g ch ft with ⟨ch', ft₁, saw, checks⟩
    rw [hc] at h
    have hlift : (i, seen) ∈ checks →
        ∃ s, findByIdT (.node i₀ op ch) i = some s ∧
          ∀ x, x ∈ seen ↔ x ∈ subtreeModifiesTList g s.children := by
      intro hm
      have hmem : (i, seen) ∈ (addFiltersTChildren g ch ft).2.2.2 := by
        rw [hc]; exact hm
      obtain ⟨s, hfind, hiff⟩ :=
        addFiltersTChildren_checks_spec g ch ft hnd' i seen hmem
      have hiid : i ∈ idsOfTList ch :=
        addFiltersTChildren_checks_ids g ch ft i seen hmem
      have hne : i₀ ≠ i := fun hij => hi₀ (hij ▸ hiid)
      refine ⟨s, ?_, hiff⟩
      show (if i₀ = i then _ else _) = _
      rw [if_neg hne]
      exact hfind
    cases saw with
    | none =>
      dsimp only at h
      exact hlift h
    | some seen₀ =>
      dsimp only at h
      have hroot : (i, seen) ∈ checks ++ [(i₀, seen₀)] →
          ∃ s, findByIdT (.node i₀ op ch) i = some s ∧
            ∀ x, x ∈ seen ↔ x ∈ subtreeModifiesTList g s.children := by
        intro hm
        rcases List.mem_append.1 hm with hm | hm
        · exact hlift hm
        · rcases List.mem_singleton.1 hm with hm
          simp only [Prod.mk.injEq] at hm
          obtain ⟨h1, h2⟩ := hm
          refine ⟨.node i₀ op ch, ?_, ?_⟩
          · show (if i₀ = i then _ else _) = _
            rw [if_pos h1.symm]
          · intro x
            show x ∈ seen ↔ x ∈ subtreeModifiesTList g ch
            rw [h2]
            exact addFiltersTChildren_saw g ch ft seen₀ (by rw [hc]) x
      by_cases hcont : FilterTree_ContainsNode ft₁ seen₀
      · rw [if_pos hcont] at h
        exact hroot h
      · rw [if_neg hcont] at h
        exact hroot h

theorem addFiltersTChildren_checks_spec (g : QGraph) :
    ∀ (cs : List PTree) (ft : List Pred), (idsOfTList cs).Nodup →
    ∀ (i : Nat) (seen : List String),
    (i, seen) ∈ (addFiltersTChildren g cs ft).2.2.2 →
    ∃ s, findByIdTList cs i = some s ∧
      ∀ x, x ∈ seen ↔ x ∈ subtreeModifiesTList g s.children
  | [], ft => by
    intro _ i seen h
    rw [addFiltersTChildren_nil] at h
    cases h
  | c :: cs, ft => by
    intro hnd i seen h
    have hnds : (idsOfT c ++ idsOfTList cs).Nodup := hnd
    have hndc : (idsOfT c).Nodup := (List.nodup_append.1 hnds).1
    have hndcs : (idsOfTList cs).Nodup := (List.nodup_append.1 hnds).2.1
    have hdisj : ∀ a ∈ idsOfT c, a ∉ idsOfTList cs :=
      fun a ha => (List.nodup_append.1 hnds).2.2 ha
    rw [addFiltersTChildren_cons] at h
    rcases hrec : addFiltersTChildren g cs ft with ⟨cs', ft₁, saw₂, checks₂⟩
    rw [hrec] at h
    have hliftcs : (i, seen) ∈ checks₂ →
        ∃ s, findByIdTList (c :: cs) i = some s ∧
          ∀ x, x ∈ seen ↔ x ∈ subtreeModifiesTList g s.children := by
      intro hm
      have hmem : (i, seen) ∈ (addFiltersTChildren g cs ft).2.2.2 := by
        rw [hrec]; exact hm
      obtain ⟨s, hfind, hiff⟩ :=
        addFiltersTChildren_checks_spec g cs ft hndcs i seen hmem
      have hiid : i ∈ idsOfTList cs :=
        addFiltersTChildren_checks_ids g cs ft i seen hmem
      have hnotc : i ∉ idsOfT c := fun hm' => hdisj i hm' hiid
      refine ⟨s, ?_, hiff⟩
      show (match findByIdT c i with
        | some r => some r
        | none => findByIdTList cs i) = _
      rw [findByIdT_eq_none c i hnotc]
      exact hfind
    cases saw₂ with
    | none =>
      dsimp only at h
      exact hliftcs h
    | some seenRest =>
      dsimp only at h
      rcases hcres : addFiltersT g c ft₁ with ⟨c', ft₂, saw₁, checks₁⟩
      rw [hcres] at h
      dsimp only at h
      have hliftc : (i, seen) ∈ checks₁ →
          ∃ s, findByIdTList (c :: cs) i = some s ∧
            ∀ x, x ∈ seen ↔ x ∈ subtreeModifiesTList g s.children := by
        intro hm
        have hmem : (i, seen) ∈ (addFiltersT g c ft₁).2.2.2 := by
          rw [hcres]; exact hm
        obtain ⟨s, hfind, hiff⟩ :=
          addFiltersT_checks_spec g c ft₁ hndc i seen hmem
        refine ⟨s, ?_, hiff⟩
        show (match findByIdT c i with
          | some r => some r
          | none => findByIdTList cs i) = _
        rw [hfind]
      have hboth : (i, seen) ∈ checks₂ ++ checks₁ →
          ∃ s, findByIdTList (c :: cs) i = some s ∧
            ∀ x, x ∈ seen ↔ x ∈ subtreeModifiesTList g s.children := by
        intro hm
        rcases List.mem_append.1 hm with hm | hm
        · exact hliftcs hm
        · exact hliftc hm
      by_cases hemp : ft₂.isEmpty
      · rw [if_pos hemp] at h
        exact hboth h
      · rw [if_neg hemp] at h
        exact hboth h

end

/-! ### Claim theorems about the optimizer walks. -/

/-- C7: after scan attachment
(`_ExecutionPlan_OptimizeEntryPoints`, tree model), every `ExpandAll`
operator that had zero children gains exactly one scan child, which
materializes the expansion's source endpoint: a `NodeByLabelScan` when
the source pattern node has a label and an `AllNodeScan` otherwise; the
scanned node is always the expansion's source, never its destination
(the cardinality-based endpoint choice is commented out in the
source). -/
theorem OptimizeEntryPoints_scan_attachment (g : QGraph) (t : PTree)
    (path : List Nat) (j src e d : Nat)
    (h : getPath t path = some (.node j (.expandAll src e d) [])) :
    getPath (optimizeEntryPointsT g t) path =
      some (.node j (.expandAll src e d) [.node 0 (scanOpFor g src) []]) ∧
    (∀ l, labelOfNode g src = some l →
      scanOpFor g src = OpType.nodeByLabelScan src l) ∧
    (labelOfNode g src = none → scanOpFor g src = OpType.allNodeScan src) :=
  ⟨optimizeEntryPointsT_scan_at_path g path t j src e d h,
   fun l hl => by simp [scanOpFor, hl],
   fun hl => by simp [scanOpFor, hl]⟩

theorem OptimizeEntryPoints_scan_attachment_witness :
    getPath (.node 7 (.expandAll 0 0 1) [] : PTree) [] =
      some (.node 7 (.expandAll 0 0 1) []) ∧
    getPath (optimizeEntryPointsT gFilterScenario
        (.node 7 (.expandAll 0 0 1) [])) [] =
      some (.node 7 (.expandAll 0 0 1) [.node 0 (.allNodeScan 0) []]) := by
  refine ⟨rfl, ?_⟩
  have h := (OptimizeEntryPoints_scan_attachment gFilterScenario
    (.node 7 (.expandAll 0 0 1) []) [] 7 0 0 1 rfl).1
  exact h

/-- The plan tree for `MATCH (a)` under the root: a `ProduceResults`
whose only child is the scan of `a` — the scan's own `modifies` is
`["a"]` while it has no descendants. -/
def treeFilterEx : PTree := .node 0 .produceResults [.node 1 (.allNodeScan 0) []]

/-- Claim-side definition (following the claim's words): the seen set at
an operator as the union of every descendant operator's `modifies` with
the operator's own `modifies`. -/
def claimedSeenT (g : QGraph) (t : PTree) : List String := subtreeModifiesT g t

/-- C6 counterexample: the claim states that the seen set consulted at
each operator includes the operator's own `modifies`.  Running the
filter-pushdown walk on `ProduceResults ← AllNodeScan(a)` with the
filter tree `[a.age > 30]`, the consultation at the scan node (id 1)
uses the empty seen set, while the claim's seen set for that node is
`["a"]` (its own `modifies`): the code pushes the current operator's
`modifies` only after the consultation. -/
theorem AddFilters_seen_counterexample :
    (addFiltersT gFilterScenario treeFilterEx ftAge).2.2.2 =
      [(1, []), (0, ["a"])] ∧
    claimedSeenT gFilterScenario (.node 1 (.allNodeScan 0) []) = ["a"] ∧
    ([] : List String) ≠ ["a"] := by
  refine ⟨by decide, by decide, by decide⟩

/-- C6 (amended): during the post-order filter-pushdown walk, the seen
set consulted at each operator (for the `contains_any` test, the
min-subtree extraction and the predicate pruning) consists exactly of
the union of the proper descendants' `modifies` sets; the current
operator's own `modifies` set is excluded — it is appended to the
returned `saw` vector only after the consultation, for use at the
operator's parent. -/
theorem AddFilters_seen_is_descendant_modifies (g : QGraph) (t : PTree)
    (ft : List Pred) (hnodup : (idsOfT t).Nodup) (i : Nat)
    (seen : List String)
    (hmem : (i, seen) ∈ (addFiltersT g t ft).2.2.2) :
    ∃ s, findByIdT t i = some s ∧
      ∀ x, x ∈ seen ↔ x ∈ subtreeModifiesTList g s.children :=
  addFiltersT_checks_spec g t ft hnodup i seen hmem

theorem AddFilters_seen_is_descendant_modifies_witness :
    (idsOfT treeFilterEx).Nodup ∧
    ((0 : Nat), ["a"]) ∈ (addFiltersT gFilterScenario treeFilterEx ftAge).2.2.2 ∧
    ("a" ∈ (["a"] : List String) ↔
      "a" ∈ subtreeModifiesTList gFilterScenario
        [.node 1 (.allNodeScan 0) []]) := by
  refine ⟨by decide, by decide, ?_⟩
  obtain ⟨s, hfind, hiff⟩ := AddFilters_seen_is_descendant_modifies
    gFilterScenario treeFilterEx ftAge (by decide) 0 ["a"] (by decide)
  have hfind' : findByIdT treeFilterEx 0 = some treeFilterEx := rfl
  rw [hfind'] at hfind
  cases hfind
  exact hiff "a"

end RedisGraph
